import Mathlib

/-!
The class `utils::message_queue` of `src/utils/message_queue.hpp`.

A shallow embedding of the bounded message queue with watermark hooks.

Modelling conventions
* `std::shared_ptr<T>` is `Option T`; the null handle is `none`.
* `std::function<void()>` is `Option H` for a type `H` of hook identities; the
  empty function is `none`.  Invoking a hook is recorded: every operation
  returns the list of hooks it invoked, in order.
* `std::counting_semaphore<depth>` is its permit counter, a `Nat`;
  `try_acquire` fails on zero.  The method `release` has a precondition: the
  counter must be below `max()`, which the library sets to the template
  argument `depth`; a call outside it is undefined.  `permit_added` is the
  counter after a release made within the precondition, and the operations
  `enqueue`, `dequeue` and `abort_queue` describe calls whose releases are
  within it; `abort_queue_checked` is `abort_queue` with the precondition
  tested.
* `std::queue<msg_ptr, std::list<msg_ptr>>` is a `List`, head = front.
* `int` marks are `Int`; `size_t` is `Nat` modulo `2 ^ 64`.  A comparison of a
  `size_t` with an `int` converts the `int` to `size_t` first.
* The template parameter `depth` is a parameter of the structure.
-/

namespace utils

/-! ## Library primitives -/

/-- Conversion of an `int` to `size_t` (usual arithmetic conversions, 64 bit). -/
def to_size_t (i : Int) : Nat := (i % (2 : Int) ^ 64).toNat

/-- Unsigned subtraction on `size_t`. -/
def size_t_sub (a b : Nat) : Nat := (a + 2 ^ 64 - b % 2 ^ 64) % 2 ^ 64

/-- Method `counting_semaphore::try_acquire`: take a permit if there is one. -/
def try_acquire (counter : Nat) : Option Nat :=
  if counter = 0 then none else some (counter - 1)

/-- The counter of a semaphore after a `release()` made within the
precondition of the method: one permit more. -/
def permit_added (counter : Nat) : Nat := counter + 1

/-! ## Data model -/

/-- Handle `msg_ptr = std::shared_ptr<msg>`; `none` is the null handle. -/
abbrev msg_ptr (T : Type) := Option T

/-- Pair `watermark::boundary = std::pair<int, std::function<void()>>`. -/
structure boundary (H : Type) where
  mark : Int
  hook : Option H
deriving DecidableEq, Repr

/-- Struct `message_queue::watermark`. -/
structure watermark (H : Type) where
  raised : Bool
  low : boundary H
  high : boundary H
deriving DecidableEq, Repr

/-- Private members of `message_queue<T, depth>` (the mutex has no state
between calls of a sequential run). -/
structure message_queue (T : Type) (H : Type) (depth : Nat) where
  occupied_slots : Nat
  available_slots : Nat
  fifo : List (msg_ptr T)
  wm : watermark H
deriving DecidableEq, Repr

/-- Exception `std::invalid_argument`, by throwing site. -/
inductive invalid_argument where
  /-- Thrown with the text: low watermark is greater or equal than high mark. -/
  | low_ge_high
  /-- Thrown with the text: high watermark could not be greater than the depth. -/
  | high_gt_depth
deriving DecidableEq, Repr

/-- Why a `dequeue` call does not return. -/
inductive fault where
  /-- Call `occupied_slots.acquire()` suspends: there is no occupied permit. -/
  | blocked
  /-- Call `fifo.front()` on an empty container: undefined behaviour. -/
  | undefined_behaviour
deriving DecidableEq, Repr

/-- Method `counting_semaphore<max>::release`, for one permit.  The library
requires `update <= max() - counter`, and `max()` returns the template
argument; a call with the counter already at `max()` is undefined. -/
def release (max counter : Nat) : Except fault Nat :=
  if counter < max then .ok (permit_added counter) else .error .undefined_behaviour

namespace message_queue

variable {T H : Type} {depth : Nat}

/-! ## Operations -/

/-- Constructor `message_queue() = default`: the member initialisers. -/
def ctor_default : message_queue T H depth :=
  { occupied_slots := 0
    available_slots := depth
    fifo := []
    wm := { raised := false, low := ⟨0, none⟩, high := ⟨(depth : Int), none⟩ } }

/-- Constructor `message_queue(watermark::boundary low, watermark::boundary high)`.
The first test compares two `int`s; the second compares an `int` with the
`size_t` depth, so the mark is converted to `size_t`. -/
def ctor (low high : boundary H) : Except invalid_argument (message_queue T H depth) :=
  if low.mark ≥ high.mark then
    .error .low_ge_high
  else if to_size_t high.mark > depth then
    .error .high_gt_depth
  else
    .ok { occupied_slots := 0
          available_slots := depth
          fifo := []
          wm := { raised := false, low := low, high := high } }

/-- Method `enqueue`: the returned flag, the queue afterwards and the hooks
invoked by the call. -/
def enqueue (q : message_queue T H depth) (payload : msg_ptr T) :
    Bool × message_queue T H depth × List H :=
  match try_acquire q.available_slots with
  | none => (false, q, [])
  | some available =>
    let fifo := q.fifo ++ [payload]
    let (wm, invoked) : watermark H × List H :=
      if q.wm.high.hook.isSome && decide (fifo.length ≥ to_size_t q.wm.high.mark) then
        ({ q.wm with raised := true }, q.wm.high.hook.toList)
      else if q.wm.low.hook.isSome && q.wm.raised &&
          decide (size_t_sub fifo.length 1 ≤ to_size_t q.wm.low.mark) then
        ({ q.wm with raised := false }, q.wm.low.hook.toList)
      else
        (q.wm, [])
    (true,
     { occupied_slots := permit_added q.occupied_slots
       available_slots := available
       fifo := fifo
       wm := wm },
     invoked)

/-- Method `dequeue`, for a caller that is alone on the queue: the returned
handle and the queue afterwards, or the reason why the call does not return. -/
def dequeue (q : message_queue T H depth) :
    Except fault (msg_ptr T × message_queue T H depth) :=
  match try_acquire q.occupied_slots with
  | none => .error .blocked
  | some occupied =>
    match q.fifo with
    | [] => .error .undefined_behaviour
    | none :: _ => .ok (none, { q with occupied_slots := occupied })
    | some m :: rest =>
      .ok (some m,
           { q with occupied_slots := occupied
                    fifo := rest
                    available_slots := permit_added q.available_slots })

/-- Method `abort_queue`, for a call whose `occupied_slots.release()` is within
the precondition of the semaphore. -/
def abort_queue (q : message_queue T H depth) : message_queue T H depth :=
  { q with occupied_slots := permit_added q.occupied_slots }

/-- Method `abort_queue` with the precondition of `occupied_slots.release()`
tested: `occupied_slots` is a `std::counting_semaphore<depth>`. -/
def abort_queue_checked (q : message_queue T H depth) :
    Except fault (message_queue T H depth) :=
  match release depth q.occupied_slots with
  | .error f => .error f
  | .ok occupied => .ok { q with occupied_slots := occupied }

end message_queue

/-! ## Sequential runs -/

/-- One call made on the queue. -/
inductive call (T : Type) where
  | enqueue (payload : msg_ptr T)
  | dequeue
  | abort_queue
deriving DecidableEq, Repr

/-- What a run shows to its environment. -/
inductive event (T H : Type) where
  | hook_invoked (hook : H)
  | enqueue_returned (payload : msg_ptr T) (ok : Bool)
  | dequeue_returned (msg : msg_ptr T)
  | abort_returned
deriving DecidableEq, Repr

variable {T H : Type} {depth : Nat}

/-- One call: the queue afterwards and the events of the call, in order. -/
def step (q : message_queue T H depth) :
    call T → Except fault (message_queue T H depth × List (event T H))
  | .enqueue payload =>
    let r := q.enqueue payload
    .ok (r.2.1, r.2.2.map .hook_invoked ++ [.enqueue_returned payload r.1])
  | .dequeue =>
    match q.dequeue with
    | .error f => .error f
    | .ok (msg, q') => .ok (q', [.dequeue_returned msg])
  | .abort_queue => .ok (q.abort_queue, [.abort_returned])

/-- A sequential run of calls; it stops at the first call that does not return. -/
def run (q : message_queue T H depth) :
    List (call T) → Except fault (message_queue T H depth × List (event T H))
  | [] => .ok (q, [])
  | c :: cs =>
    match step q c with
    | .error f => .error f
    | .ok (q', es) =>
      match run q' cs with
      | .error f => .error f
      | .ok (q2, es2) => .ok (q2, es ++ es2)

/-- A queue as one of the two constructors leaves it. -/
def freshly_constructed (q : message_queue T H depth) : Prop :=
  q = message_queue.ctor_default ∨ ∃ low high, message_queue.ctor low high = .ok q

/-- The payloads whose `enqueue` returned true, in call order. -/
def enqueued_ok (es : List (event T H)) : List (msg_ptr T) :=
  es.filterMap fun
    | .enqueue_returned payload true => some payload
    | _ => none

/-- The handles returned by `dequeue`, in call order. -/
def dequeued (es : List (event T H)) : List (msg_ptr T) :=
  es.filterMap fun
    | .dequeue_returned msg => some msg
    | _ => none

/-- The hooks invoked, in order. -/
def hooks_invoked (es : List (event T H)) : List H :=
  es.filterMap fun
    | .hook_invoked hook => some hook
    | _ => none

/-- The two hooks of the watermark scenario of the specification. -/
inductive hook_id where
  | hook_low
  | hook_high
deriving DecidableEq, Repr

/-- The calls that enqueue the given payloads, one after the other. -/
def fill (ps : List T) : List (call T) := ps.map fun p => call.enqueue (some p)

/-- Slot accounting: free permits plus held items make up the depth. -/
def slots_balanced (q : message_queue T H depth) : Prop :=
  q.available_slots + q.fifo.length = depth

/-- The number of `abort_queue` calls among the calls. -/
def abort_calls : List (call T) → Nat
  | [] => 0
  | .abort_queue :: cs => abort_calls cs + 1
  | _ :: cs => abort_calls cs

/-- Hysteresis of a hook trace: every `hook_low` has a `hook_high` before it
that no earlier `hook_low` has used up.  The flag says whether such a
`hook_high` is at hand. -/
def low_after_high : Bool → List hook_id → Bool
  | _, [] => true
  | _, .hook_high :: hs => low_after_high true hs
  | armed, .hook_low :: hs => armed && low_after_high false hs

/-! ## Concurrent dequeue calls

Several `dequeue` calls run at the same time.  Each call advances through the
statements of the method one at a time; calls are interleaved by a schedule.
The mutex `operation` is part of the shared state here. -/

/-- Where one `dequeue` call stands. -/
inductive dequeue_pc (T : Type) where
  /-- Before `occupied_slots.acquire()`. -/
  | start
  /-- A permit is taken; before `auto msg = fifo.front()`. -/
  | acquired
  /-- The local `msg` holds the handle read; before the test `if (!msg)`. -/
  | read (msg : msg_ptr T)
  /-- The guard `g` holds the mutex; before `fifo.pop()`. -/
  | locked (msg : msg_ptr T)
  /-- The pop is done; the guard is still alive. -/
  | popped (msg : msg_ptr T)
  /-- The guard is destroyed; before `available_slots.release()`. -/
  | unlocked (msg : msg_ptr T)
  /-- The call has returned `msg`. -/
  | returned (msg : msg_ptr T)
deriving DecidableEq, Repr

/-- The queue, its mutex (true while locked) and the `dequeue` calls under way. -/
structure consumers (T : Type) (H : Type) (depth : Nat) where
  q : message_queue T H depth
  operation : Bool
  calls : List (dequeue_pc T)
deriving DecidableEq, Repr

/-- The next statement of one `dequeue` call.  A call waits (`blocked`) on the
semaphore or on the mutex; a call that has returned has no statement left. -/
def dequeue_step (q : message_queue T H depth) (operation : Bool) :
    dequeue_pc T → Except fault (message_queue T H depth × Bool × dequeue_pc T)
  | .start =>
    match try_acquire q.occupied_slots with
    | none => .error .blocked
    | some occupied => .ok ({ q with occupied_slots := occupied }, operation, .acquired)
  | .acquired =>
    match q.fifo with
    | [] => .error .undefined_behaviour
    | msg :: _ => .ok (q, operation, .read msg)
  | .read none => .ok (q, operation, .returned none)
  | .read (some m) =>
    if operation then .error .blocked else .ok (q, true, .locked (some m))
  | .locked msg =>
    match q.fifo with
    | [] => .error .undefined_behaviour
    | _ :: rest => .ok ({ q with fifo := rest }, operation, .popped msg)
  | .popped msg => .ok (q, false, .unlocked msg)
  | .unlocked msg =>
    .ok ({ q with available_slots := permit_added q.available_slots }, operation, .returned msg)
  | .returned _ => .error .blocked

/-- The calls take their statements in the order of the schedule, which names
the call that moves next. -/
def interleave (s : consumers T H depth) : List Nat → Except fault (consumers T H depth)
  | [] => .ok s
  | i :: is =>
    match s.calls[i]? with
    | none => .error .blocked
    | some pc =>
      match dequeue_step s.q s.operation pc with
      | .error f => .error f
      | .ok (q, operation, pc') =>
        interleave { q := q, operation := operation, calls := s.calls.set i pc' } is

/-! ## Basic facts about the operations -/

theorem try_acquire_zero : try_acquire 0 = none := rfl

theorem try_acquire_succ (n : Nat) : try_acquire (n + 1) = some n := by
  simp [try_acquire]

theorem try_acquire_eq_none {n : Nat} : try_acquire n = none ↔ n = 0 := by
  unfold try_acquire
  split <;> simp_all

theorem try_acquire_eq_some {n m : Nat} : try_acquire n = some m ↔ n = m + 1 := by
  unfold try_acquire
  split <;> simp <;> omega

theorem enqueue_full (q : message_queue T H depth) (payload : msg_ptr T)
    (h : q.available_slots = 0) : q.enqueue payload = (false, q, []) := by
  simp [message_queue.enqueue, h, try_acquire_zero]

theorem enqueue_fst (q : message_queue T H depth) (payload : msg_ptr T) :
    (q.enqueue payload).1 = !decide (q.available_slots = 0) := by
  unfold message_queue.enqueue
  cases h : try_acquire q.available_slots with
  | none => simp [try_acquire_eq_none.mp h]
  | some a =>
    have := try_acquire_eq_some.mp h
    simp [this]

theorem enqueue_ok_fifo (q : message_queue T H depth) (payload : msg_ptr T)
    (h : q.available_slots ≠ 0) :
    (q.enqueue payload).2.1.fifo = q.fifo ++ [payload] ∧
    (q.enqueue payload).2.1.available_slots = q.available_slots - 1 ∧
    (q.enqueue payload).2.1.occupied_slots = q.occupied_slots + 1 := by
  obtain ⟨a, ha⟩ : ∃ a, q.available_slots = a + 1 := ⟨q.available_slots - 1, by omega⟩
  simp [message_queue.enqueue, ha, try_acquire_succ, permit_added]

theorem run_append (q : message_queue T H depth) (cs cs' : List (call T)) :
    run q (cs ++ cs') =
      match run q cs with
      | .error f => .error f
      | .ok (q', es) =>
        match run q' cs' with
        | .error f => .error f
        | .ok (q2, es2) => .ok (q2, es ++ es2) := by
  induction cs generalizing q with
  | nil =>
    rw [List.nil_append, run]
    dsimp only
    cases run q cs' with
    | error f => rfl
    | ok r => obtain ⟨q1, es1⟩ := r; rfl
  | cons c cs ih =>
    rw [List.cons_append, run, run]
    cases step q c with
    | error f => rfl
    | ok r =>
      obtain ⟨q1, es1⟩ := r
      dsimp only
      rw [ih q1]
      cases run q1 cs with
      | error f => rfl
      | ok r2 =>
        obtain ⟨q2, es2⟩ := r2
        dsimp only
        cases run q2 cs' with
        | error f => rfl
        | ok r3 => obtain ⟨q3, es3⟩ := r3; simp [List.append_assoc]

theorem enqueued_ok_append (es es' : List (event T H)) :
    enqueued_ok (es ++ es') = enqueued_ok es ++ enqueued_ok es' := by
  simp [enqueued_ok]

theorem dequeued_append (es es' : List (event T H)) :
    dequeued (es ++ es') = dequeued es ++ dequeued es' := by
  simp [dequeued]

theorem hooks_invoked_append (es es' : List (event T H)) :
    hooks_invoked (es ++ es') = hooks_invoked es ++ hooks_invoked es' := by
  simp [hooks_invoked]

theorem slots_balanced_fresh (q : message_queue T H depth) (h : freshly_constructed q) :
    slots_balanced q := by
  rcases h with h | ⟨low, high, h⟩
  · subst h; simp [slots_balanced, message_queue.ctor_default]
  · unfold message_queue.ctor at h
    split at h
    · cases h
    · split at h
      · cases h
      · cases h; simp [slots_balanced]

theorem slots_balanced_step (q q' : message_queue T H depth) (c : call T)
    (es : List (event T H)) (hq : slots_balanced q) (h : step q c = .ok (q', es)) :
    slots_balanced q' := by
  unfold slots_balanced at *
  cases c with
  | enqueue payload =>
    simp only [step, Except.ok.injEq, Prod.mk.injEq] at h
    obtain ⟨rfl, -⟩ := h
    by_cases ha : q.available_slots = 0
    · rw [enqueue_full q payload ha]; exact hq
    · obtain ⟨h1, h2, -⟩ := enqueue_ok_fifo q payload ha
      rw [h1, h2]; simp; omega
  | dequeue =>
    simp only [step, message_queue.dequeue] at h
    cases hoc : try_acquire q.occupied_slots with
    | none => simp [hoc] at h
    | some occ =>
      cases hf : q.fifo with
      | nil => simp [hoc, hf] at h
      | cons m rest =>
        cases m with
        | none =>
          simp [hoc, hf] at h
          obtain ⟨rfl, -⟩ := h
          simp [hf] at hq ⊢
          exact hq
        | some m =>
          simp [hoc, hf] at h
          obtain ⟨rfl, -⟩ := h
          simp [hf, permit_added] at hq ⊢
          omega
  | abort_queue =>
    simp only [step, Except.ok.injEq, Prod.mk.injEq] at h
    obtain ⟨rfl, -⟩ := h
    simpa [message_queue.abort_queue] using hq

theorem slots_balanced_run (cs : List (call T)) (q q' : message_queue T H depth)
    (es : List (event T H)) (hq : slots_balanced q) (h : run q cs = .ok (q', es)) :
    slots_balanced q' := by
  induction cs generalizing q es with
  | nil =>
    simp only [run, Except.ok.injEq, Prod.mk.injEq] at h
    obtain ⟨rfl, -⟩ := h
    exact hq
  | cons c cs ih =>
    simp only [run] at h
    cases hs : step q c with
    | error f => simp [hs] at h
    | ok r =>
      obtain ⟨q1, es1⟩ := r
      simp only [hs] at h
      cases hr : run q1 cs with
      | error f => simp [hr] at h
      | ok r2 =>
        obtain ⟨q2, es2⟩ := r2
        simp only [hr, Except.ok.injEq, Prod.mk.injEq] at h
        obtain ⟨rfl, -⟩ := h
        exact ih q1 es2 (slots_balanced_step q q1 c es1 hq hs) hr

theorem enqueued_ok_step_enqueue (hooks : List H) (payload : msg_ptr T) (ok : Bool) :
    enqueued_ok (hooks.map event.hook_invoked ++ [event.enqueue_returned payload ok]) =
      if ok then [payload] else [] := by
  induction hooks with
  | nil => cases ok <;> simp [enqueued_ok]
  | cons h hs ih => simpa [enqueued_ok] using ih

theorem dequeued_step_enqueue (hooks : List H) (payload : msg_ptr T) (ok : Bool) :
    dequeued (hooks.map event.hook_invoked ++ [event.enqueue_returned payload ok] :
      List (event T H)) = [] := by
  induction hooks with
  | nil => simp [dequeued]
  | cons h hs ih => simp [dequeued]

theorem hooks_invoked_step_enqueue (hooks : List H) (payload : msg_ptr T) (ok : Bool) :
    hooks_invoked (hooks.map event.hook_invoked ++ [event.enqueue_returned payload ok] :
      List (event T H)) = hooks := by
  induction hooks with
  | nil => simp [hooks_invoked]
  | cons h hs ih =>
    simp only [hooks_invoked] at ih
    simp [hooks_invoked, ih]

/-- Step form of the fifo order: what went in is what came out plus what is held. -/
theorem fifo_order_step (q q' : message_queue T H depth) (c : call T)
    (es : List (event T H)) (hq : ∀ m ∈ q.fifo, m ≠ none)
    (hc : c = call.dequeue ∨ ∃ x, c = call.enqueue (some x))
    (h : step q c = .ok (q', es)) :
    q.fifo ++ enqueued_ok es = dequeued es ++ q'.fifo ∧ ∀ m ∈ q'.fifo, m ≠ none := by
  rcases hc with rfl | ⟨x, rfl⟩
  · simp only [step, message_queue.dequeue] at h
    cases hoc : try_acquire q.occupied_slots with
    | none => simp [hoc] at h
    | some occ =>
      cases hf : q.fifo with
      | nil => simp [hoc, hf] at h
      | cons m rest =>
        cases m with
        | none => exact absurd rfl (hq none (by simp [hf]))
        | some m =>
          simp [hoc, hf] at h
          obtain ⟨rfl, rfl⟩ := h
          refine ⟨by simp [enqueued_ok, dequeued], ?_⟩
          intro m' hm'
          exact hq m' (by simp [hf]; exact Or.inr hm')
  · simp only [step, Except.ok.injEq, Prod.mk.injEq] at h
    obtain ⟨rfl, rfl⟩ := h
    rw [enqueued_ok_step_enqueue, dequeued_step_enqueue]
    by_cases ha : q.available_slots = 0
    · rw [enqueue_full q (some x) ha]
      simpa using hq
    · obtain ⟨h1, -, -⟩ := enqueue_ok_fifo q (some x) ha
      have h2 : (q.enqueue (some x)).1 = true := by rw [enqueue_fst]; simp [ha]
      rw [h1, h2]
      refine ⟨by simp, ?_⟩
      intro m hm
      rcases List.mem_append.mp hm with hm | hm
      · exact hq m hm
      · simp at hm; subst hm; simp

theorem fifo_order_run (cs : List (call T)) (q q' : message_queue T H depth)
    (es : List (event T H)) (hq : ∀ m ∈ q.fifo, m ≠ none)
    (hcs : ∀ c ∈ cs, c = call.dequeue ∨ ∃ x, c = call.enqueue (some x))
    (h : run q cs = .ok (q', es)) :
    q.fifo ++ enqueued_ok es = dequeued es ++ q'.fifo := by
  induction cs generalizing q es with
  | nil =>
    simp only [run, Except.ok.injEq, Prod.mk.injEq] at h
    obtain ⟨rfl, rfl⟩ := h
    simp [enqueued_ok, dequeued]
  | cons c cs ih =>
    simp only [run] at h
    cases hs : step q c with
    | error f => simp [hs] at h
    | ok r =>
      obtain ⟨q1, es1⟩ := r
      simp only [hs] at h
      cases hr : run q1 cs with
      | error f => simp [hr] at h
      | ok r2 =>
        obtain ⟨q2, es2⟩ := r2
        simp only [hr, Except.ok.injEq, Prod.mk.injEq] at h
        obtain ⟨rfl, rfl⟩ := h
        obtain ⟨h1, h2⟩ := fifo_order_step q q1 c es1 hq (hcs c (by simp)) hs
        have h3 := ih q1 es2 h2 (fun c' hc' => hcs c' (by simp [hc'])) hr
        rw [enqueued_ok_append, dequeued_append, ← List.append_assoc, h1,
          List.append_assoc, h3, List.append_assoc]

theorem fresh_fifo (q : message_queue T H depth) (h : freshly_constructed q) :
    q.fifo = [] ∧ q.occupied_slots = 0 ∧ q.available_slots = depth ∧ q.wm.raised = false := by
  rcases h with h | ⟨low, high, h⟩
  · subst h; simp [message_queue.ctor_default]
  · unfold message_queue.ctor at h
    split at h
    · cases h
    · split at h
      · cases h
      · cases h; simp

/-- An enqueue on a queue without hooks that has a free slot. -/
theorem enqueue_no_hooks (q : message_queue T H depth) (payload : msg_ptr T)
    (hh : q.wm.high.hook = none) (hl : q.wm.low.hook = none) (ha : q.available_slots ≠ 0) :
    q.enqueue payload =
      (true, { q with occupied_slots := q.occupied_slots + 1
                      available_slots := q.available_slots - 1
                      fifo := q.fifo ++ [payload] }, []) := by
  obtain ⟨a, ha⟩ : ∃ a, q.available_slots = a + 1 := ⟨q.available_slots - 1, by omega⟩
  simp [message_queue.enqueue, ha, try_acquire_succ, permit_added, hh, hl]

/-- Filling a queue without hooks: every enqueue that finds a free slot returns true. -/
theorem run_fill_no_hooks (ps : List T) (q : message_queue T H depth)
    (hh : q.wm.high.hook = none) (hl : q.wm.low.hook = none)
    (hlen : ps.length ≤ q.available_slots) :
    run q (ps.map fun p => call.enqueue (some p)) =
      .ok ({ q with occupied_slots := q.occupied_slots + ps.length
                    available_slots := q.available_slots - ps.length
                    fifo := q.fifo ++ ps.map some },
           ps.map fun p => event.enqueue_returned (some p) true) := by
  induction ps generalizing q with
  | nil => simp [run]
  | cons p ps ih =>
    simp only [List.length_cons] at hlen
    have ha : q.available_slots ≠ 0 := by omega
    simp only [List.map_cons, run, step, enqueue_no_hooks q (some p) hh hl ha]
    have h1 := ih { q with occupied_slots := q.occupied_slots + 1
                           available_slots := q.available_slots - 1
                           fifo := q.fifo ++ [some p] } hh hl (by simp; omega)
    rw [h1]
    simp only [List.map_nil, List.nil_append, List.singleton_append, List.length_cons,
      List.append_assoc, Except.ok.injEq, Prod.mk.injEq, and_true]
    congr 1 <;> omega

/-- A non-negative `int` keeps its value as a `size_t`. -/
theorem to_size_t_of_nonneg (i : Int) (h0 : 0 ≤ i) (h1 : i < 2 ^ 31) :
    (to_size_t i : Int) = i := by
  unfold to_size_t
  omega

/-- A negative `int` wraps around to the top of the `size_t` range. -/
theorem to_size_t_of_neg (i : Int) (h0 : -2 ^ 31 ≤ i) (h1 : i < 0) :
    (to_size_t i : Int) = 2 ^ 64 + i := by
  unfold to_size_t
  omega

theorem ctor_isOk (low high : boundary H) :
    (message_queue.ctor low high : Except invalid_argument (message_queue T H depth)).isOk =
      (!decide (low.mark ≥ high.mark) && !decide (to_size_t high.mark > depth)) := by
  unfold message_queue.ctor
  by_cases h1 : low.mark ≥ high.mark
  · simp [h1, Except.isOk, Except.toBool]
  · by_cases h2 : to_size_t high.mark > depth
    · simp [h1, h2, Except.isOk, Except.toBool]
    · simp [h1, h2, Except.isOk, Except.toBool]

theorem to_size_t_natCast (n : Nat) (h : n < 2 ^ 64) : to_size_t (n : Int) = n := by
  unfold to_size_t
  omega

theorem size_t_sub_one (n : Nat) (h : n < 2 ^ 64) : size_t_sub (n + 1) 1 = n := by
  unfold size_t_sub
  omega

/-- An enqueue on a queue with a high hook at mark `mark`, when the raised flag
is only set at or above the mark. -/
theorem enqueue_high_hook (q : message_queue T H depth) (payload : msg_ptr T) (mark : Nat)
    (hh : H) (hq : q.wm.high = ⟨(mark : Int), some hh⟩) (h64 : mark < 2 ^ 64)
    (ha : q.available_slots ≠ 0) (hr : q.wm.raised = true → mark ≤ q.fifo.length) :
    q.enqueue payload =
      (true,
       { occupied_slots := q.occupied_slots + 1
         available_slots := q.available_slots - 1
         fifo := q.fifo ++ [payload]
         wm := if mark ≤ q.fifo.length + 1 then { q.wm with raised := true } else q.wm },
       if mark ≤ q.fifo.length + 1 then [hh] else []) := by
  obtain ⟨a, ha⟩ : ∃ a, q.available_slots = a + 1 := ⟨q.available_slots - 1, by omega⟩
  by_cases hge : mark ≤ q.fifo.length + 1
  · simp [message_queue.enqueue, ha, try_acquire_succ, permit_added, hq,
      to_size_t_natCast mark h64, hge]
  · have hr' : q.wm.raised = false := by
      cases hraised : q.wm.raised with
      | false => rfl
      | true => have := hr hraised; omega
    simp [message_queue.enqueue, ha, try_acquire_succ, permit_added, hq,
      to_size_t_natCast mark h64, hge, hr']

/-- Filling a queue that has a high hook at mark `mark`: the hook is invoked by
every enqueue that brings the occupancy to the mark or above, and no other
hook is. -/
theorem run_fill_high_hook (ps : List T) (q : message_queue T H depth) (mark : Nat) (hh : H)
    (hq : q.wm.high = ⟨(mark : Int), some hh⟩) (h64 : mark < 2 ^ 64)
    (hlen : ps.length ≤ q.available_slots)
    (hr : q.wm.raised = true → mark ≤ q.fifo.length) :
    ∃ es, run q (fill ps) =
        .ok ({ occupied_slots := q.occupied_slots + ps.length
               available_slots := q.available_slots - ps.length
               fifo := q.fifo ++ ps.map some
               wm := if mark ≤ q.fifo.length + ps.length ∧ 0 < ps.length then
                       { q.wm with raised := true } else q.wm }, es) ∧
      hooks_invoked es =
        List.replicate
          ((q.fifo.length + ps.length + 1 - mark) - (q.fifo.length + 1 - mark)) hh ∧
      enqueued_ok es = ps.map some ∧ dequeued es = [] := by
  induction ps generalizing q with
  | nil =>
    refine ⟨[], ?_, by simp [hooks_invoked], rfl, rfl⟩
    simp [fill, run]
  | cons p ps ih =>
    simp only [List.length_cons] at hlen
    have ha : q.available_slots ≠ 0 := by omega
    obtain ⟨es, h1, h2, h3, h4⟩ := ih
      { occupied_slots := q.occupied_slots + 1
        available_slots := q.available_slots - 1
        fifo := q.fifo ++ [some p]
        wm := if mark ≤ q.fifo.length + 1 then { q.wm with raised := true } else q.wm }
      (by split <;> simp [hq]) (by simp only; omega)
      (by
        split
        · intro _; simp only [List.length_append, List.length_singleton]; omega
        · intro hraised
          have := hr hraised
          simp only [List.length_append, List.length_singleton]; omega)
    refine ⟨(if mark ≤ q.fifo.length + 1 then [hh] else []).map event.hook_invoked ++
      [event.enqueue_returned (some p) true] ++ es, ?_, ?_, ?_, ?_⟩
    · simp only [fill, List.map_cons, run, step,
        enqueue_high_hook q (some p) mark hh hq h64 ha hr]
      simp only [fill] at h1
      rw [h1]
      simp only [List.length_append, List.length_singleton, List.length_cons,
        List.append_assoc, List.singleton_append, Except.ok.injEq, Prod.mk.injEq, and_true]
      have e1 : q.occupied_slots + 1 + ps.length = q.occupied_slots + (ps.length + 1) := by
        omega
      have e2 : q.available_slots - 1 - ps.length = q.available_slots - (ps.length + 1) := by
        omega
      rw [e1, e2]
      congr 1
      by_cases hge : mark ≤ q.fifo.length + 1
      · have h5 : mark ≤ q.fifo.length + (ps.length + 1) := by omega
        simp [hge, h5]
      · by_cases hps : 0 < ps.length
        · have h6 : (mark ≤ q.fifo.length + 1 + ps.length) ↔
              (mark ≤ q.fifo.length + (ps.length + 1)) := by omega
          simp [hge, hps, h6]
        · have h7 : ps.length = 0 := by omega
          simp [hge, h7]
    · rw [hooks_invoked_append, hooks_invoked_step_enqueue, h2]
      simp only [List.length_append, List.length_singleton, List.length_cons,
        List.length_nil]
      by_cases hge : mark ≤ q.fifo.length + 1
      · rw [if_pos hge, List.singleton_append, ← List.replicate_succ]
        congr 1
        omega
      · rw [if_neg hge, List.nil_append]
        congr 1
        omega
    · rw [enqueued_ok_append, enqueued_ok_step_enqueue, h3]
      simp
    · rw [dequeued_append, dequeued_step_enqueue, h4]
      simp

theorem ctor_ok_eq (low high : boundary H) (q : message_queue T H depth)
    (h : message_queue.ctor low high = .ok q) :
    q = { occupied_slots := 0
          available_slots := depth
          fifo := []
          wm := { raised := false, low := low, high := high } } := by
  unfold message_queue.ctor at h
  split at h
  · cases h
  · split at h
    · cases h
    · cases h; rfl

/-- Draining: dequeues of non-null head items with permits at hand return them in order. -/
theorem run_drain (ms : List T) (q : message_queue T H depth) (rest : List (msg_ptr T))
    (hf : q.fifo = ms.map some ++ rest) (ho : ms.length ≤ q.occupied_slots) :
    run q (List.replicate ms.length call.dequeue) =
      .ok ({ q with occupied_slots := q.occupied_slots - ms.length
                    available_slots := q.available_slots + ms.length
                    fifo := rest },
           ms.map fun m => event.dequeue_returned (some m)) := by
  induction ms generalizing q with
  | nil =>
    simp only [List.length_nil, List.replicate_zero, run, Nat.sub_zero, Nat.add_zero,
      List.map_nil, Except.ok.injEq, Prod.mk.injEq, and_true]
    simp only [List.map_nil, List.nil_append] at hf
    rw [← hf]
  | cons m ms ih =>
    simp only [List.length_cons] at ho
    obtain ⟨o, ho'⟩ : ∃ o, q.occupied_slots = o + 1 := ⟨q.occupied_slots - 1, by omega⟩
    simp only [List.map_cons, List.cons_append] at hf
    have h1 := ih { q with occupied_slots := o
                           fifo := ms.map some ++ rest
                           available_slots := permit_added q.available_slots } rfl
      (by simp only; omega)
    simp only [List.length_cons, List.replicate_succ, run, step, message_queue.dequeue, ho',
      try_acquire_succ, hf, h1]
    simp only [permit_added, List.map_cons, List.singleton_append, Except.ok.injEq, Prod.mk.injEq,
      and_true]
    congr 1 <;> omega

theorem hooks_invoked_drain (ms : List T) :
    hooks_invoked (ms.map fun m => (event.dequeue_returned (some m) : event T H)) = [] := by
  induction ms with
  | nil => rfl
  | cons m ms ih =>
    simp only [hooks_invoked] at ih
    simp [hooks_invoked, ih]

theorem dequeued_drain (ms : List T) :
    dequeued (ms.map fun m => (event.dequeue_returned (some m) : event T H)) =
      ms.map some := by
  induction ms with
  | nil => rfl
  | cons m ms ih =>
    simp only [dequeued] at ih
    simp [dequeued, ih]

/-- One call alone, from start to return, does what the sequential `dequeue` does. -/
theorem interleave_alone (q : message_queue T H depth) :
    (match interleave { q := q, operation := false, calls := [.start] } [0, 0, 0] with
     | .ok s =>
       match s.calls with
       | [.returned msg] => .ok (msg, s.q)
       | _ =>
         match interleave s [0, 0, 0] with
         | .ok s' =>
           match s'.calls with
           | [.returned msg] => .ok (msg, s'.q)
           | _ => .error .blocked
         | .error f => .error f
     | .error f => .error f) = q.dequeue := by
  unfold message_queue.dequeue
  cases hocc : try_acquire q.occupied_slots with
  | none => simp [interleave, dequeue_step, hocc]
  | some occ =>
    cases hf : q.fifo with
    | nil => simp [interleave, dequeue_step, hocc, hf]
    | cons m rest =>
      cases m with
      | none => simp [interleave, dequeue_step, hocc, hf]
      | some m => simp [interleave, dequeue_step, hocc, hf]

/-- The events of a call that returned, by kind of call. -/
theorem step_cases (q q' : message_queue T H depth) (c : call T) (es : List (event T H))
    (h : step q c = .ok (q', es)) :
    (∃ payload, c = call.enqueue payload ∧ q' = (q.enqueue payload).2.1 ∧
      es = (q.enqueue payload).2.2.map event.hook_invoked ++
        [event.enqueue_returned payload (q.enqueue payload).1]) ∨
    (∃ msg, c = call.dequeue ∧ q.dequeue = .ok (msg, q') ∧
      es = [event.dequeue_returned msg]) ∨
    (c = call.abort_queue ∧ q' = q.abort_queue ∧ es = [event.abort_returned]) := by
  cases c with
  | enqueue payload =>
    simp only [step, Except.ok.injEq, Prod.mk.injEq] at h
    exact Or.inl ⟨payload, rfl, h.1.symm, h.2.symm⟩
  | dequeue =>
    simp only [step] at h
    cases hd : q.dequeue with
    | error f => simp [hd] at h
    | ok r =>
      obtain ⟨msg, q1⟩ := r
      simp only [hd, Except.ok.injEq, Prod.mk.injEq] at h
      obtain ⟨rfl, rfl⟩ := h
      exact Or.inr (Or.inl ⟨msg, rfl, rfl, rfl⟩)
  | abort_queue =>
    simp only [step, Except.ok.injEq, Prod.mk.injEq] at h
    exact Or.inr (Or.inr ⟨rfl, h.1.symm, h.2.symm⟩)

/-- What a `dequeue` that returns has done. -/
theorem dequeue_ok_cases (q q' : message_queue T H depth) (msg : msg_ptr T)
    (h : q.dequeue = .ok (msg, q')) :
    q.occupied_slots ≠ 0 ∧
    ((msg = none ∧ q.fifo.head? = some none ∧
        q' = { q with occupied_slots := q.occupied_slots - 1 }) ∨
     (∃ m rest, msg = some m ∧ q.fifo = some m :: rest ∧
        q' = { q with occupied_slots := q.occupied_slots - 1
                      fifo := rest
                      available_slots := q.available_slots + 1 })) := by
  unfold message_queue.dequeue at h
  cases hoc : try_acquire q.occupied_slots with
  | none => simp [hoc] at h
  | some occ =>
    have ho := try_acquire_eq_some.mp hoc
    refine ⟨by omega, ?_⟩
    cases hf : q.fifo with
    | nil => simp [hoc, hf] at h
    | cons m rest =>
      cases m with
      | none =>
        simp only [hoc, hf, Except.ok.injEq, Prod.mk.injEq] at h
        obtain ⟨rfl, rfl⟩ := h
        refine Or.inl ⟨rfl, rfl, ?_⟩
        simp [ho]
      | some m =>
        simp only [hoc, hf, Except.ok.injEq, Prod.mk.injEq] at h
        obtain ⟨rfl, rfl⟩ := h
        refine Or.inr ⟨m, rest, rfl, rfl, ?_⟩
        simp [ho, permit_added]

/-- Permit accounting of one call: only `abort_queue` adds an occupied permit
that no held item stands for. -/
theorem occupied_step (q q' : message_queue T H depth) (c : call T)
    (es : List (event T H)) (h : step q c = .ok (q', es)) :
    q'.occupied_slots + q.fifo.length ≤
      q.occupied_slots + q'.fifo.length + abort_calls [c] := by
  rcases step_cases q q' c es h with ⟨payload, rfl, rfl, -⟩ | ⟨msg, rfl, hd, -⟩ | ⟨rfl, rfl, -⟩
  · by_cases ha : q.available_slots = 0
    · rw [enqueue_full q payload ha]; simp [abort_calls]
    · obtain ⟨h1, -, h3⟩ := enqueue_ok_fifo q payload ha
      rw [h1, h3]; simp [abort_calls]; omega
  · obtain ⟨ho, ⟨-, -, rfl⟩ | ⟨m, rest, -, hf, rfl⟩⟩ := dequeue_ok_cases q q' msg hd
    · simp [abort_calls]
    · simp [abort_calls, hf]; omega
  · simp only [abort_calls, message_queue.abort_queue, permit_added]
    omega

theorem abort_calls_cons (c : call T) (cs : List (call T)) :
    abort_calls (c :: cs) = abort_calls [c] + abort_calls cs := by
  cases c with
  | enqueue payload => simp [abort_calls]
  | dequeue => simp [abort_calls]
  | abort_queue => simp only [abort_calls]; omega

theorem abort_calls_eq_zero (cs : List (call T)) (h : ∀ c ∈ cs, c ≠ call.abort_queue) :
    abort_calls cs = 0 := by
  induction cs with
  | nil => rfl
  | cons c cs ih =>
    have h1 := ih (fun c' hc' => h c' (by simp [hc']))
    have h2 := h c (by simp)
    cases c with
    | enqueue payload => simpa [abort_calls] using h1
    | dequeue => simpa [abort_calls] using h1
    | abort_queue => exact absurd rfl h2

theorem occupied_run (cs : List (call T)) (q q' : message_queue T H depth)
    (es : List (event T H)) (h : run q cs = .ok (q', es)) :
    q'.occupied_slots + q.fifo.length ≤
      q.occupied_slots + q'.fifo.length + abort_calls cs := by
  induction cs generalizing q es with
  | nil =>
    simp only [run, Except.ok.injEq, Prod.mk.injEq] at h
    obtain ⟨rfl, -⟩ := h
    simp [abort_calls]
  | cons c cs ih =>
    simp only [run] at h
    cases hs : step q c with
    | error f => simp [hs] at h
    | ok r =>
      obtain ⟨q1, es1⟩ := r
      simp only [hs] at h
      cases hr : run q1 cs with
      | error f => simp [hr] at h
      | ok r2 =>
        obtain ⟨q2, es2⟩ := r2
        simp only [hr, Except.ok.injEq, Prod.mk.injEq] at h
        obtain ⟨rfl, -⟩ := h
        have h1 := occupied_step q q1 c es1 hs
        have h2 := ih q1 es2 hr
        rw [abort_calls_cons]
        omega

/-- The high branch of the watermark evaluation. -/
theorem enqueue_high_branch (q : message_queue T H depth) (payload : msg_ptr T) (hh : H)
    (ha : q.available_slots ≠ 0) (hhook : q.wm.high.hook = some hh)
    (hsize : to_size_t q.wm.high.mark ≤ q.fifo.length + 1) :
    q.enqueue payload =
      (true,
       { occupied_slots := q.occupied_slots + 1
         available_slots := q.available_slots - 1
         fifo := q.fifo ++ [payload]
         wm := { q.wm with raised := true } },
       [hh]) := by
  obtain ⟨a, ha⟩ : ∃ a, q.available_slots = a + 1 := ⟨q.available_slots - 1, by omega⟩
  simp [message_queue.enqueue, ha, try_acquire_succ, permit_added, hhook, hsize]

/-- The low branch of the watermark evaluation. -/
theorem enqueue_low_branch (q : message_queue T H depth) (payload : msg_ptr T) (hl : H)
    (ha : q.available_slots ≠ 0)
    (hnot : ¬ (q.wm.high.hook.isSome = true ∧ to_size_t q.wm.high.mark ≤ q.fifo.length + 1))
    (hhook : q.wm.low.hook = some hl) (hraised : q.wm.raised = true)
    (hsize : size_t_sub (q.fifo.length + 1) 1 ≤ to_size_t q.wm.low.mark) :
    q.enqueue payload =
      (true,
       { occupied_slots := q.occupied_slots + 1
         available_slots := q.available_slots - 1
         fifo := q.fifo ++ [payload]
         wm := { q.wm with raised := false } },
       [hl]) := by
  obtain ⟨a, ha⟩ : ∃ a, q.available_slots = a + 1 := ⟨q.available_slots - 1, by omega⟩
  have hc : (q.wm.high.hook.isSome &&
      decide (to_size_t q.wm.high.mark ≤ q.fifo.length + 1)) = false := by
    cases hb : (q.wm.high.hook.isSome &&
      decide (to_size_t q.wm.high.mark ≤ q.fifo.length + 1)) with
    | false => rfl
    | true =>
      simp only [Bool.and_eq_true, decide_eq_true_eq] at hb
      exact absurd hb hnot
  simp [message_queue.enqueue, ha, try_acquire_succ, permit_added, hc, hhook, hraised, hsize]

/-- Neither branch of the watermark evaluation. -/
theorem enqueue_no_branch (q : message_queue T H depth) (payload : msg_ptr T)
    (ha : q.available_slots ≠ 0)
    (hnot : ¬ (q.wm.high.hook.isSome = true ∧ to_size_t q.wm.high.mark ≤ q.fifo.length + 1))
    (hnot2 : ¬ (q.wm.low.hook.isSome = true ∧ q.wm.raised = true ∧
      size_t_sub (q.fifo.length + 1) 1 ≤ to_size_t q.wm.low.mark)) :
    q.enqueue payload =
      (true,
       { occupied_slots := q.occupied_slots + 1
         available_slots := q.available_slots - 1
         fifo := q.fifo ++ [payload]
         wm := q.wm },
       []) := by
  obtain ⟨a, ha⟩ : ∃ a, q.available_slots = a + 1 := ⟨q.available_slots - 1, by omega⟩
  have hc : (q.wm.high.hook.isSome &&
      decide (to_size_t q.wm.high.mark ≤ q.fifo.length + 1)) = false := by
    cases hb : (q.wm.high.hook.isSome &&
      decide (to_size_t q.wm.high.mark ≤ q.fifo.length + 1)) with
    | false => rfl
    | true =>
      simp only [Bool.and_eq_true, decide_eq_true_eq] at hb
      exact absurd hb hnot
  have hc2 : (q.wm.low.hook.isSome && q.wm.raised &&
      decide (size_t_sub (q.fifo.length + 1) 1 ≤ to_size_t q.wm.low.mark)) = false := by
    cases hb : (q.wm.low.hook.isSome && q.wm.raised &&
      decide (size_t_sub (q.fifo.length + 1) 1 ≤ to_size_t q.wm.low.mark)) with
    | false => rfl
    | true =>
      simp only [Bool.and_eq_true, decide_eq_true_eq] at hb
      exact absurd ⟨hb.1.1, hb.1.2, hb.2⟩ hnot2
  simp [message_queue.enqueue, ha, try_acquire_succ, permit_added, hc, hc2]

/-- No call changes the marks or the hooks of the watermark. -/
theorem wm_config_step (q q' : message_queue T H depth) (c : call T)
    (es : List (event T H)) (h : step q c = .ok (q', es)) :
    q'.wm.low = q.wm.low ∧ q'.wm.high = q.wm.high := by
  rcases step_cases q q' c es h with ⟨payload, rfl, rfl, -⟩ | ⟨msg, rfl, hd, -⟩ | ⟨rfl, rfl, -⟩
  · unfold message_queue.enqueue
    cases try_acquire q.available_slots with
    | none => exact ⟨rfl, rfl⟩
    | some a =>
      dsimp only
      split
      · exact ⟨rfl, rfl⟩
      · split
        · exact ⟨rfl, rfl⟩
        · exact ⟨rfl, rfl⟩
  · obtain ⟨-, ⟨-, -, rfl⟩ | ⟨m, rest, -, -, rfl⟩⟩ := dequeue_ok_cases q q' msg hd
    · exact ⟨rfl, rfl⟩
    · exact ⟨rfl, rfl⟩
  · exact ⟨rfl, rfl⟩

theorem wm_config_run (cs : List (call T)) (q q' : message_queue T H depth)
    (es : List (event T H)) (h : run q cs = .ok (q', es)) :
    q'.wm.low = q.wm.low ∧ q'.wm.high = q.wm.high := by
  induction cs generalizing q es with
  | nil =>
    simp only [run, Except.ok.injEq, Prod.mk.injEq] at h
    obtain ⟨rfl, -⟩ := h
    exact ⟨rfl, rfl⟩
  | cons c cs ih =>
    simp only [run] at h
    cases hs : step q c with
    | error f => simp [hs] at h
    | ok r =>
      obtain ⟨q1, es1⟩ := r
      simp only [hs] at h
      cases hr : run q1 cs with
      | error f => simp [hr] at h
      | ok r2 =>
        obtain ⟨q2, es2⟩ := r2
        simp only [hr, Except.ok.injEq, Prod.mk.injEq] at h
        obtain ⟨rfl, -⟩ := h
        obtain ⟨h1, h2⟩ := wm_config_step q q1 c es1 hs
        obtain ⟨h3, h4⟩ := ih q1 es2 hr
        exact ⟨h3.trans h1, h4.trans h2⟩

theorem to_size_t_of_nonneg_lt (i : Int) (h0 : 0 ≤ i) (h1 : i < 2 ^ 64) :
    (to_size_t i : Int) = i := by
  unfold to_size_t
  omega

theorem ctor_ok_lt (low high : boundary H) (q : message_queue T H depth)
    (hq : message_queue.ctor low high = .ok q) : low.mark < high.mark := by
  unfold message_queue.ctor at hq
  split at hq
  · cases hq
  · omega

/-- What the two tests of the constructor leave true of the marks. -/
theorem ctor_ok_marks (low high : boundary H) (q : message_queue T H depth)
    (hd : depth < 2 ^ 63) (hmin : -2 ^ 31 ≤ high.mark) (hmax : high.mark < 2 ^ 31)
    (hq : message_queue.ctor low high = .ok q) :
    low.mark < high.mark ∧ 0 ≤ high.mark ∧ high.mark ≤ (depth : Int) := by
  unfold message_queue.ctor at hq
  split at hq
  · cases hq
  · rename_i h1
    split at hq
    · cases hq
    · rename_i h2
      refine ⟨by omega, ?_, ?_⟩
      · by_contra hneg
        have := to_size_t_of_neg high.mark hmin (by omega)
        omega
      · by_cases hneg : high.mark < 0
        · omega
        · have := to_size_t_of_nonneg high.mark (by omega) hmax
          omega

theorem run_aborts (k : Nat) (q : message_queue T H depth) :
    run q (List.replicate k call.abort_queue) =
      .ok ({ q with occupied_slots := q.occupied_slots + k },
           List.replicate k event.abort_returned) := by
  induction k generalizing q with
  | zero => simp [run]
  | succ k ih =>
    simp only [List.replicate_succ, run, step, ih, message_queue.abort_queue, permit_added,
      List.singleton_append, Except.ok.injEq, Prod.mk.injEq, and_true]
    congr 1
    omega

/-- Dequeues on a queue whose head is the sentinel return it and leave it there. -/
theorem run_dequeue_sentinel (n : Nat) (q : message_queue T H depth)
    (rest : List (msg_ptr T)) (hf : q.fifo = none :: rest) (ho : n ≤ q.occupied_slots) :
    run q (List.replicate n call.dequeue) =
      .ok ({ q with occupied_slots := q.occupied_slots - n },
           List.replicate n (event.dequeue_returned none)) := by
  induction n generalizing q with
  | zero => simp [run]
  | succ n ih =>
    obtain ⟨o, ho'⟩ : ∃ o, q.occupied_slots = o + 1 := ⟨q.occupied_slots - 1, by omega⟩
    have h1 := ih { q with occupied_slots := o } hf (by simp only; omega)
    simp only [hf] at h1
    simp only [List.replicate_succ, run, step, message_queue.dequeue, ho', try_acquire_succ,
      hf, h1, List.singleton_append, Except.ok.injEq, Prod.mk.injEq, and_true]
    congr 1
    omega

theorem dequeued_replicate_abort (k : Nat) :
    dequeued (List.replicate k (event.abort_returned : event T H)) = [] := by
  induction k with
  | zero => rfl
  | succ k ih =>
    simp only [dequeued] at ih
    simp [dequeued, List.replicate_succ, ih]

theorem dequeued_replicate_sentinel (n : Nat) :
    dequeued (List.replicate n (event.dequeue_returned none : event T H)) =
      List.replicate n none := by
  induction n with
  | zero => rfl
  | succ n ih =>
    simp only [dequeued] at ih
    simp [dequeued, List.replicate_succ, ih]

theorem dequeue_undefined_iff (q : message_queue T H depth) :
    q.dequeue = .error fault.undefined_behaviour ↔ q.occupied_slots ≠ 0 ∧ q.fifo = [] := by
  unfold message_queue.dequeue
  cases hoc : try_acquire q.occupied_slots with
  | none =>
    have := try_acquire_eq_none.mp hoc
    simp [this]
  | some occ =>
    have := try_acquire_eq_some.mp hoc
    cases hf : q.fifo with
    | nil => simp [this]
    | cons m rest => cases m <;> simp

/-- Without abort_queue calls a run never reads the head of an empty sequence. -/
theorem run_no_undefined (cs : List (call T)) (q : message_queue T H depth)
    (hq : q.occupied_slots ≤ q.fifo.length) (hcs : ∀ c ∈ cs, c ≠ call.abort_queue) :
    run q cs ≠ .error fault.undefined_behaviour := by
  induction cs generalizing q with
  | nil => simp [run]
  | cons c cs ih =>
    simp only [run]
    cases hs : step q c with
    | error f =>
      simp only [ne_eq, Except.error.injEq]
      intro hf
      subst hf
      cases c with
      | enqueue payload => simp [step] at hs
      | dequeue =>
        simp only [step] at hs
        cases hd : q.dequeue with
        | error f =>
          simp only [hd, Except.error.injEq] at hs
          subst hs
          have := (dequeue_undefined_iff q).mp hd
          rw [this.2] at hq
          simp at hq
          exact this.1 hq
        | ok r => simp [hd] at hs
      | abort_queue => simp [step] at hs
    | ok r =>
      obtain ⟨q1, es1⟩ := r
      have h1 := occupied_step q q1 c es1 hs
      have h2 := abort_calls_eq_zero [c] (fun c' hc' => hcs c' (by simp at hc'; simp [hc']))
      have h3 := ih q1 (by omega) (fun c' hc' => hcs c' (by simp [hc']))
      dsimp only
      cases hr : run q1 cs with
      | error f =>
        rw [hr] at h3
        simpa using h3
      | ok r2 => simp

/-- What one enqueue can invoke when the low hook is `hook_low` or absent and
the high hook is `hook_high` or absent. -/
theorem enqueue_invoked_cases (q : message_queue T hook_id depth) (payload : msg_ptr T)
    (hl : q.wm.low.hook ≠ some hook_id.hook_high)
    (hh : q.wm.high.hook ≠ some hook_id.hook_low) :
    ((q.enqueue payload).2.2 = [] ∧ (q.enqueue payload).2.1.wm.raised = q.wm.raised) ∨
    ((q.enqueue payload).2.2 = [hook_id.hook_high] ∧
      (q.enqueue payload).2.1.wm.raised = true ∧ q.wm.high.hook.isSome = true) ∨
    ((q.enqueue payload).2.2 = [hook_id.hook_low] ∧ q.wm.raised = true ∧
      (q.enqueue payload).2.1.wm.raised = false) := by
  by_cases ha : q.available_slots = 0
  · rw [enqueue_full q payload ha]
    exact Or.inl ⟨rfl, rfl⟩
  · by_cases c1 : q.wm.high.hook.isSome = true ∧
        to_size_t q.wm.high.mark ≤ q.fifo.length + 1
    · obtain ⟨h, hhook⟩ := Option.isSome_iff_exists.mp c1.1
      cases h with
      | hook_low => exact absurd hhook hh
      | hook_high =>
        rw [enqueue_high_branch q payload hook_id.hook_high ha hhook c1.2]
        exact Or.inr (Or.inl ⟨rfl, rfl, c1.1⟩)
    · by_cases c2 : q.wm.low.hook.isSome = true ∧ q.wm.raised = true ∧
          size_t_sub (q.fifo.length + 1) 1 ≤ to_size_t q.wm.low.mark
      · obtain ⟨h, hhook⟩ := Option.isSome_iff_exists.mp c2.1
        cases h with
        | hook_high => exact absurd hhook hl
        | hook_low =>
          rw [enqueue_low_branch q payload hook_id.hook_low ha c1 hhook c2.2.1 c2.2.2]
          exact Or.inr (Or.inr ⟨rfl, c2.2.1, rfl⟩)
      · rw [enqueue_no_branch q payload ha c1 c2]
        exact Or.inl ⟨rfl, rfl⟩

/-- One call: the hooks it invokes and what becomes of the raised flag. -/
theorem step_invoked_cases (q q' : message_queue T hook_id depth) (c : call T)
    (es : List (event T hook_id)) (hl : q.wm.low.hook ≠ some hook_id.hook_high)
    (hh : q.wm.high.hook ≠ some hook_id.hook_low) (h : step q c = .ok (q', es)) :
    (hooks_invoked es = [] ∧ q'.wm.raised = q.wm.raised) ∨
    (hooks_invoked es = [hook_id.hook_high] ∧ q'.wm.raised = true ∧
      q.wm.high.hook.isSome = true) ∨
    (hooks_invoked es = [hook_id.hook_low] ∧ q.wm.raised = true ∧
      q'.wm.raised = false) := by
  rcases step_cases q q' c es h with ⟨payload, rfl, rfl, rfl⟩ | ⟨msg, rfl, hd, rfl⟩ |
    ⟨rfl, rfl, rfl⟩
  · rw [hooks_invoked_step_enqueue]
    exact enqueue_invoked_cases q payload hl hh
  · obtain ⟨-, ⟨-, -, rfl⟩ | ⟨m, rest, -, -, rfl⟩⟩ := dequeue_ok_cases q q' msg hd
    · exact Or.inl ⟨rfl, rfl⟩
    · exact Or.inl ⟨rfl, rfl⟩
  · exact Or.inl ⟨rfl, rfl⟩

/-- The raised flag is only set on a queue that has a high hook, and the hook
trace of a run obeys the hysteresis, from any state whose raised flag is
covered by the flag of the trace check. -/
theorem hysteresis_run (cs : List (call T)) (q q' : message_queue T hook_id depth)
    (es : List (event T hook_id)) (armed : Bool)
    (hl : q.wm.low.hook ≠ some hook_id.hook_high)
    (hh : q.wm.high.hook ≠ some hook_id.hook_low)
    (hr : q.wm.raised = true → q.wm.high.hook.isSome = true)
    (ha : q.wm.raised = true → armed = true)
    (h : run q cs = .ok (q', es)) :
    (q'.wm.raised = true → q'.wm.high.hook.isSome = true) ∧
    low_after_high armed (hooks_invoked es) = true := by
  induction cs generalizing q es armed with
  | nil =>
    simp only [run, Except.ok.injEq, Prod.mk.injEq] at h
    obtain ⟨rfl, rfl⟩ := h
    exact ⟨hr, rfl⟩
  | cons c cs ih =>
    simp only [run] at h
    cases hs : step q c with
    | error f => simp [hs] at h
    | ok r =>
      obtain ⟨q1, es1⟩ := r
      simp only [hs] at h
      cases hrun : run q1 cs with
      | error f => simp [hrun] at h
      | ok r2 =>
        obtain ⟨q2, es2⟩ := r2
        simp only [hrun, Except.ok.injEq, Prod.mk.injEq] at h
        obtain ⟨rfl, rfl⟩ := h
        obtain ⟨hc1, hc2⟩ := wm_config_step q q1 c es1 hs
        have hl1 : q1.wm.low.hook ≠ some hook_id.hook_high := by rw [hc1]; exact hl
        have hh1 : q1.wm.high.hook ≠ some hook_id.hook_low := by rw [hc2]; exact hh
        rw [hooks_invoked_append]
        rcases step_invoked_cases q q1 c es1 hl hh hs with ⟨e1, e2⟩ | ⟨e1, e2, e3⟩ |
          ⟨e1, e2, e3⟩
        · have := ih q1 es2 armed hl1 hh1 (by rw [e2, hc2]; exact hr) (by rw [e2]; exact ha)
            hrun
          rw [e1, List.nil_append]
          exact this
        · have := ih q1 es2 true hl1 hh1 (by rw [hc2]; exact fun _ => e3) (fun _ => rfl) hrun
          rw [e1, List.singleton_append]
          exact ⟨this.1, by simpa [low_after_high] using this.2⟩
        · have := ih q1 es2 false hl1 hh1 (by rw [e3]; intro hc; cases hc)
            (by rw [e3]; intro hc; cases hc) hrun
          rw [e1, List.singleton_append]
          refine ⟨this.1, ?_⟩
          simp only [low_after_high, ha e2, Bool.true_and]
          exact this.2

theorem release_ok (max counter : Nat) (h : counter < max) :
    release max counter = .ok (counter + 1) := by
  simp [release, permit_added, h]

theorem release_undefined (max counter : Nat) (h : ¬ counter < max) :
    release max counter = .error fault.undefined_behaviour := by
  simp [release, h]

/-- A checked `abort_queue` that returns has done what `abort_queue` says. -/
theorem abort_queue_checked_ok (q q' : message_queue T H depth)
    (h : q.abort_queue_checked = .ok q') :
    q.occupied_slots < depth ∧ q' = q.abort_queue := by
  unfold message_queue.abort_queue_checked at h
  by_cases hlt : q.occupied_slots < depth
  · rw [release_ok depth q.occupied_slots hlt] at h
    simp only [Except.ok.injEq] at h
    exact ⟨hlt, by rw [← h]; rfl⟩
  · rw [release_undefined depth q.occupied_slots hlt] at h
    cases h

/-- Without `abort_queue` every release of a run is within the precondition of
its semaphore: in a reached state an enqueue that takes a free slot finds fewer
than `depth` occupied permits, and a dequeue that pops finds fewer than `depth`
free permits. -/
theorem releases_within_contract (q0 q : message_queue T H depth) (cs : List (call T))
    (es : List (event T H)) (h0 : freshly_constructed q0)
    (hcs : ∀ c ∈ cs, c ≠ call.abort_queue) (hrun : run q0 cs = .ok (q, es)) :
    (q.available_slots ≠ 0 → release depth q.occupied_slots = .ok (q.occupied_slots + 1)) ∧
    (q.fifo ≠ [] → release depth q.available_slots = .ok (q.available_slots + 1)) := by
  have hb := slots_balanced_run cs q0 q es (slots_balanced_fresh q0 h0) hrun
  have ho := occupied_run cs q0 q es hrun
  obtain ⟨hf, hocc, -, -⟩ := fresh_fifo q0 h0
  unfold slots_balanced at hb
  rw [abort_calls_eq_zero cs hcs, hf, hocc] at ho
  simp only [List.length_nil, Nat.add_zero, Nat.zero_add] at ho
  refine ⟨fun ha => release_ok _ _ (by omega), fun hne => release_ok _ _ ?_⟩
  have : q.fifo.length ≠ 0 := by
    intro h0'
    exact hne (List.length_eq_zero.mp h0')
  omega

/-! ## The claims -/

/-- C1. Capacity invariant: in every state reached from a freshly constructed
queue by a finite sequence of calls in which every call returns (so each
dequeue found an occupied permit), the number of items held in the fifo is at
most depth, and it is never negative.  The sequence may hold enqueue and
dequeue calls, as the claim has it, and the bound stays true with abort_queue
calls among them. -/
theorem C1_capacity_invariant (q0 q : message_queue T H depth) (cs : List (call T))
    (es : List (event T H)) (h0 : freshly_constructed q0)
    (hrun : run q0 cs = .ok (q, es)) :
    0 ≤ q.fifo.length ∧ q.fifo.length ≤ depth := by
  have hb := slots_balanced_run cs q0 q es (slots_balanced_fresh q0 h0) hrun
  unfold slots_balanced at hb
  omega

theorem C1_capacity_invariant_witness :
    ∃ q es, run (message_queue.ctor_default : message_queue Nat Unit 2)
        [.enqueue (some 7), .enqueue (some 8), .enqueue (some 9), .dequeue, .enqueue none] =
          .ok (q, es) ∧
      q.fifo = [some 8, none] ∧ 0 ≤ q.fifo.length ∧ q.fifo.length ≤ 2 :=
  ⟨_, _, rfl, rfl,
    C1_capacity_invariant (message_queue.ctor_default : message_queue Nat Unit 2) _
      [.enqueue (some 7), .enqueue (some 8), .enqueue (some 9), .dequeue, .enqueue none] _
      (Or.inl rfl) rfl⟩

/-- C2. FIFO order: in every sequential run of enqueue and dequeue calls on a
fresh queue in which all payloads are non-null and no abort_queue is called,
the handles returned by the dequeue calls, in call order, are a prefix of the
payloads whose enqueue returned true, in call order (what is left over is
exactly the held item sequence); in particular the i-th handle dequeued is the
i-th payload enqueued, so of two payloads enqueued the earlier one is dequeued
first. -/
theorem C2_fifo_order (q0 q : message_queue T H depth) (cs : List (call T))
    (es : List (event T H)) (h0 : freshly_constructed q0)
    (hcs : ∀ c ∈ cs, c = call.dequeue ∨ ∃ x, c = call.enqueue (some x))
    (hrun : run q0 cs = .ok (q, es)) :
    dequeued es <+: enqueued_ok es ∧
    enqueued_ok es = dequeued es ++ q.fifo ∧
    ∀ i, i < (dequeued es).length → (dequeued es)[i]? = (enqueued_ok es)[i]? := by
  have hf := (fresh_fifo q0 h0).1
  have h := fifo_order_run cs q0 q es (by simp [hf]) hcs hrun
  rw [hf, List.nil_append] at h
  refine ⟨⟨q.fifo, h.symm⟩, h, ?_⟩
  intro i hi
  rw [h, List.getElem?_append_left hi]

theorem C2_fifo_order_witness :
    ∃ q es, run (message_queue.ctor_default : message_queue Nat Unit 2)
        [.enqueue (some 7), .enqueue (some 8), .enqueue (some 9), .dequeue,
         .enqueue (some 10), .dequeue] = .ok (q, es) ∧
      enqueued_ok es = [some 7, some 8, some 10] ∧ dequeued es = [some 7, some 8] ∧
      (dequeued es <+: enqueued_ok es ∧
       enqueued_ok es = dequeued es ++ q.fifo ∧
       ∀ i, i < (dequeued es).length → (dequeued es)[i]? = (enqueued_ok es)[i]?) :=
  ⟨_, _, rfl, rfl, rfl,
    C2_fifo_order (message_queue.ctor_default : message_queue Nat Unit 2) _
      [.enqueue (some 7), .enqueue (some 8), .enqueue (some 9), .dequeue,
       .enqueue (some 10), .dequeue] _
      (Or.inl rfl) (by simp) rfl⟩

/-- C3. Backpressure: on a default-constructed queue of depth N >= 1 (no
watermark hooks), N consecutive enqueue calls of non-null payloads all return
true, the (N+1)-th enqueue returns false, the dequeue that follows returns (the
first payload), and the enqueue after it returns true. -/
theorem C3_backpressure (N : Nat) (hN : 1 ≤ N) (ps : List T) (hps : ps.length = N)
    (x y : msg_ptr T) :
    ∃ q p, ps.head? = some p ∧
      run (message_queue.ctor_default : message_queue T H N)
          ((ps.map fun p => call.enqueue (some p)) ++
            [call.enqueue x, call.dequeue, call.enqueue y]) =
        .ok (q, (ps.map fun p => event.enqueue_returned (some p) true) ++
            [event.enqueue_returned x false, event.dequeue_returned (some p),
             event.enqueue_returned y true]) := by
  cases ps with
  | nil => simp at hps; omega
  | cons p ps =>
    refine ⟨{ (message_queue.ctor_default : message_queue T H N) with
              occupied_slots := N
              available_slots := 0
              fifo := ps.map some ++ [y] }, p, rfl, ?_⟩
    rw [run_append,
      run_fill_no_hooks (p :: ps) (message_queue.ctor_default : message_queue T H N) rfl rfl
        (by simp [message_queue.ctor_default]; simp at hps; omega)]
    have hlen : (p :: ps).length = N := hps
    simp only [hlen, message_queue.ctor_default, Nat.sub_self, Nat.zero_add,
      List.nil_append, List.map_cons]
    simp only [run, step]
    rw [enqueue_full _ x rfl]
    simp only [message_queue.dequeue, List.map_nil, List.nil_append]
    obtain ⟨n, rfl⟩ : ∃ n, N = n + 1 := ⟨N - 1, by omega⟩
    simp only [try_acquire_succ, List.cons_append]
    rw [enqueue_no_hooks _ y rfl rfl (by simp [permit_added])]
    simp [permit_added, message_queue.ctor_default]

theorem C3_backpressure_witness :
    ∃ q p, [7, 8].head? = some p ∧
      run (message_queue.ctor_default : message_queue Nat Unit 2)
          (([7, 8].map fun p => call.enqueue (some p)) ++
            [call.enqueue (some 9), call.dequeue, call.enqueue (some 10)]) =
        .ok (q, ([7, 8].map fun p => event.enqueue_returned (some p) true) ++
            [event.enqueue_returned (some 9) false, event.dequeue_returned (some p),
             event.enqueue_returned (some 10) true]) :=
  C3_backpressure 2 (by decide) [7, 8] rfl (some 9) (some 10)

/-- C4. Failed enqueue is atomic: for every queue state and payload, enqueue
returns false if and only if no free (available_slots) permit is available, and
in that case the queue (item sequence, both permit counts, raised flag and the
rest of the watermark) is unchanged and no watermark hook is invoked. -/
theorem C4_failed_enqueue_atomic (q : message_queue T H depth) (payload : msg_ptr T) :
    ((q.enqueue payload).1 = false ↔ q.available_slots = 0) ∧
    ((q.enqueue payload).1 = false →
      (q.enqueue payload).2.1 = q ∧ (q.enqueue payload).2.2 = []) := by
  have h1 : (q.enqueue payload).1 = false ↔ q.available_slots = 0 := by
    rw [enqueue_fst]; simp
  refine ⟨h1, fun h => ?_⟩
  rw [enqueue_full q payload (h1.mp h)]
  exact ⟨rfl, rfl⟩

/-- C5, as the claim states it, fails: at depth 10 the thresholds low = -2,
high = -1 satisfy neither low >= high nor high > depth, and construction
throws all the same (the negative high mark is compared as a `size_t`). -/
theorem C5_counterexample :
    (message_queue.ctor ⟨-2, none⟩ ⟨-1, none⟩ :
        Except invalid_argument (message_queue Unit Unit 10)) = .error .high_gt_depth ∧
      ¬ ((-2 : Int) ≥ -1 ∨ (-1 : Int) > ((10 : Nat) : Int)) :=
  ⟨rfl, by decide⟩

/-- C5, amended. For `int` thresholds and a depth below 2 ^ 63, construction
fails with `std::invalid_argument` if and only if low >= high or high > depth
or high < 0; in particular low = 5, high = 5 fails, any high > depth fails, and
low = 0, high = depth succeeds when depth >= 1. -/
theorem C5_ctor_fails_iff (low high : boundary H) (hd : depth < 2 ^ 63)
    (hmin : -2 ^ 31 ≤ high.mark) (hmax : high.mark < 2 ^ 31) :
    ((message_queue.ctor low high :
        Except invalid_argument (message_queue T H depth)).isOk = false ↔
      (low.mark ≥ high.mark ∨ high.mark > (depth : Int) ∨ high.mark < 0)) ∧
    (low.mark = 5 → high.mark = 5 →
      (message_queue.ctor low high :
        Except invalid_argument (message_queue T H depth)).isOk = false) ∧
    (high.mark > (depth : Int) →
      (message_queue.ctor low high :
        Except invalid_argument (message_queue T H depth)).isOk = false) ∧
    (low.mark = 0 → high.mark = (depth : Int) → 1 ≤ depth →
      (message_queue.ctor low high :
        Except invalid_argument (message_queue T H depth)).isOk = true) := by
  have key : (message_queue.ctor low high :
        Except invalid_argument (message_queue T H depth)).isOk = false ↔
      (low.mark ≥ high.mark ∨ high.mark > (depth : Int) ∨ high.mark < 0) := by
    rw [ctor_isOk]
    by_cases hneg : high.mark < 0
    · have := to_size_t_of_neg high.mark hmin hneg
      simp only [Bool.and_eq_false_imp, Bool.not_eq_true', decide_eq_false_iff_not,
        Bool.not_eq_false', decide_eq_true_eq, not_le, ge_iff_le, gt_iff_lt]
      constructor
      · intro _; exact Or.inr (Or.inr hneg)
      · intro _ _; omega
    · have := to_size_t_of_nonneg high.mark (by omega) hmax
      simp only [Bool.and_eq_false_imp, Bool.not_eq_true', decide_eq_false_iff_not,
        Bool.not_eq_false', decide_eq_true_eq, not_le, ge_iff_le, gt_iff_lt]
      constructor
      · intro h
        by_cases h1 : high.mark ≤ low.mark
        · exact Or.inl h1
        · have := h (by omega)
          right; left; omega
      · intro h _; omega
  refine ⟨key, ?_, ?_, ?_⟩
  · intro h1 h2; exact key.mpr (Or.inl (by omega))
  · intro h; exact key.mpr (Or.inr (Or.inl h))
  · intro h1 h2 h3
    cases hok : (message_queue.ctor low high :
        Except invalid_argument (message_queue T H depth)).isOk with
    | true => rfl
    | false => have := key.mp hok; omega

theorem C5_ctor_fails_iff_witness :
    (((message_queue.ctor ⟨0, none⟩ ⟨10, none⟩ :
        Except invalid_argument (message_queue Unit Unit 10)).isOk = false ↔
      ((0 : Int) ≥ 10 ∨ (10 : Int) > ((10 : Nat) : Int) ∨ (10 : Int) < 0)) ∧
    ((0 : Int) = 5 → (10 : Int) = 5 →
      (message_queue.ctor ⟨0, none⟩ ⟨10, none⟩ :
        Except invalid_argument (message_queue Unit Unit 10)).isOk = false) ∧
    ((10 : Int) > ((10 : Nat) : Int) →
      (message_queue.ctor ⟨0, none⟩ ⟨10, none⟩ :
        Except invalid_argument (message_queue Unit Unit 10)).isOk = false) ∧
    ((0 : Int) = 0 → (10 : Int) = ((10 : Nat) : Int) → 1 ≤ 10 →
      (message_queue.ctor ⟨0, none⟩ ⟨10, none⟩ :
        Except invalid_argument (message_queue Unit Unit 10)).isOk = true)) ∧
    (message_queue.ctor ⟨0, none⟩ ⟨10, none⟩ :
        Except invalid_argument (message_queue Unit Unit 10)).isOk = true :=
  ⟨@C5_ctor_fails_iff Unit Unit 10 ⟨0, none⟩ ⟨10, none⟩
      (by decide) (by decide) (by decide), by decide⟩

/-- C6, as the claim states it, fails: at depth 10 the thresholds low = -1,
high = 5 construct a queue, and its low threshold is negative. -/
theorem C6_counterexample :
    ∃ q : message_queue Unit Unit 10,
      message_queue.ctor ⟨-1, none⟩ ⟨5, none⟩ = .ok q ∧
      ¬ (0 ≤ q.wm.low.mark ∧ q.wm.low.mark < q.wm.high.mark ∧
          q.wm.high.mark ≤ ((10 : Nat) : Int)) :=
  ⟨_, rfl, by decide⟩

/-- C6, amended. For `int` thresholds and a depth below 2 ^ 63, every queue
that `message_queue(low, high)` constructs without error carries the two
boundaries it was given and satisfies low.threshold < high.threshold and
0 <= high.threshold <= depth.  The low threshold has no lower bound. -/
theorem C6_ctor_ordering (low high : boundary H) (q : message_queue T H depth)
    (hd : depth < 2 ^ 63) (hmin : -2 ^ 31 ≤ high.mark) (hmax : high.mark < 2 ^ 31)
    (hq : message_queue.ctor low high = .ok q) :
    q.wm.low = low ∧ q.wm.high = high ∧
    q.wm.low.mark < q.wm.high.mark ∧ 0 ≤ q.wm.high.mark ∧ q.wm.high.mark ≤ (depth : Int) := by
  unfold message_queue.ctor at hq
  split at hq
  · cases hq
  · rename_i h1
    split at hq
    · cases hq
    · rename_i h2
      cases hq
      refine ⟨rfl, rfl, ?_, ?_, ?_⟩
      · simp only; omega
      · simp only
        by_contra hneg
        have := to_size_t_of_neg high.mark hmin (by omega)
        omega
      · simp only
        by_cases hneg : high.mark < 0
        · omega
        · have := to_size_t_of_nonneg high.mark (by omega) hmax
          omega

theorem C6_ctor_ordering_witness :
    ∃ q : message_queue Unit Unit 10,
      message_queue.ctor ⟨-1, none⟩ ⟨5, none⟩ = .ok q ∧
      (q.wm.low = ⟨-1, none⟩ ∧ q.wm.high = ⟨5, none⟩ ∧
        q.wm.low.mark < q.wm.high.mark ∧ 0 ≤ q.wm.high.mark ∧
        q.wm.high.mark ≤ ((10 : Nat) : Int)) :=
  ⟨_, rfl, @C6_ctor_ordering Unit Unit 10 ⟨-1, none⟩ ⟨5, none⟩ _
    (by decide) (by decide) (by decide) rfl⟩

/-- C7, as the claim states it, fails: with depth = 10, high = (8, hook_high),
low = (2, hook_low), ten enqueues into the fresh queue invoke hook_high three
times (on the 8th, the 9th and the 10th), not once. -/
theorem C7_counterexample :
    ∃ (q0 q : message_queue Nat hook_id 10) (es : List (event Nat hook_id)),
      message_queue.ctor ⟨2, some .hook_low⟩ ⟨8, some .hook_high⟩ = .ok q0 ∧
      run q0 (fill [1, 2, 3, 4, 5, 6, 7, 8, 9, 10]) = .ok (q, es) ∧
      hooks_invoked es = [.hook_high, .hook_high, .hook_high] ∧
      (hooks_invoked es).count .hook_high ≠ 1 :=
  ⟨_, _, _, rfl, rfl, rfl, by decide⟩

/-- C7, amended. For a queue constructed with a high hook at threshold mark >= 1
(witness: depth = 10, high = (8, hook_high), low = (2, hook_low)), enqueuing n
non-null items into the fresh queue with no dequeues, for any n up to depth,
makes every enqueue return true and invokes the high hook n + 1 - mark times
(0 if n < mark) and no other hook: the high hook is invoked first by the
enqueue that brings the occupancy to mark (the 8th) and again by every further
enqueue up to depth (the 9th and the 10th). -/
theorem C7_high_hook_while_filling (low : boundary H) (mark : Nat) (hh : H)
    (q0 : message_queue T H depth) (ps : List T) (h1 : 1 ≤ mark) (hint : mark < 2 ^ 31)
    (hctor : message_queue.ctor low ⟨(mark : Int), some hh⟩ = .ok q0)
    (hlen : ps.length ≤ depth) :
    ∃ q es, run q0 (fill ps) = .ok (q, es) ∧
      hooks_invoked es = List.replicate (ps.length + 1 - mark) hh ∧
      enqueued_ok es = ps.map some ∧
      q.wm.raised = decide (mark ≤ ps.length) := by
  have hq0 := ctor_ok_eq _ _ _ hctor
  subst hq0
  obtain ⟨es, h2, h3, h4, -⟩ := run_fill_high_hook ps
    ({ occupied_slots := 0, available_slots := depth, fifo := [],
       wm := { raised := false, low := low, high := ⟨(mark : Int), some hh⟩ } } :
      message_queue T H depth) mark hh rfl (by omega) hlen (by simp)
  refine ⟨_, es, h2, ?_, h4, ?_⟩
  · rw [h3]
    congr 1
    simp only [List.length_nil]
    omega
  · simp only [List.length_nil, Nat.zero_add]
    by_cases hm : mark ≤ ps.length
    · have : 0 < ps.length := by omega
      simp [hm, this]
    · simp [hm]

theorem C7_high_hook_while_filling_witness :
    ∃ (q : message_queue Nat hook_id 10) (es : List (event Nat hook_id)),
      run { occupied_slots := 0, available_slots := 10, fifo := [],
            wm := { raised := false, low := ⟨2, some .hook_low⟩,
                    high := ⟨8, some .hook_high⟩ } }
          (fill [1, 2, 3, 4, 5, 6, 7, 8, 9, 10]) = .ok (q, es) ∧
      hooks_invoked es = List.replicate ([1, 2, 3, 4, 5, 6, 7, 8, 9, 10].length + 1 - 8)
        hook_id.hook_high ∧
      enqueued_ok es = [1, 2, 3, 4, 5, 6, 7, 8, 9, 10].map some ∧
      q.wm.raised = decide (8 ≤ [1, 2, 3, 4, 5, 6, 7, 8, 9, 10].length) :=
  @C7_high_hook_while_filling Nat hook_id 10 ⟨2, some hook_id.hook_low⟩ 8 hook_id.hook_high _
    [1, 2, 3, 4, 5, 6, 7, 8, 9, 10] (by decide) (by decide) rfl (by decide)

/-- C8, as the claim states it, fails: with depth = 10, high = (8, hook_high),
low = (2, hook_low), after ten enqueues the eight dequeues that leave exactly
two items all return and hook_low has not been invoked at all. -/
theorem C8_counterexample :
    ∃ (q0 q : message_queue Nat hook_id 10) (es : List (event Nat hook_id)),
      message_queue.ctor ⟨2, some .hook_low⟩ ⟨8, some .hook_high⟩ = .ok q0 ∧
      run q0 (fill [1, 2, 3, 4, 5, 6, 7, 8, 9, 10] ++ List.replicate 8 call.dequeue) =
        .ok (q, es) ∧
      q.fifo.length = 2 ∧
      (hooks_invoked es).count .hook_low = 0 :=
  ⟨_, _, _, rfl, rfl, rfl, by decide⟩

/-- C8, amended. For a queue with depth = 10, high = (8, hook_high),
low = (2, hook_low) that has been filled to the high threshold or past it (8 to
10 non-null items), dequeuing d items one by one returns them in order and
invokes no hook at all: the hooks invoked so far are the hook_high calls of the
filling, hook_low is not among them, and raised stays true.  Once the drain has
left low.threshold (2) items or fewer, the next enqueue returns true, invokes
hook_low exactly once and resets raised, and the enqueue after it invokes no
hook. -/
theorem C8_low_hook_after_drain (ps : List T) (d : Nat) (y z : msg_ptr T)
    (q0 : message_queue T hook_id 10)
    (hctor : message_queue.ctor ⟨2, some .hook_low⟩ ⟨8, some .hook_high⟩ = .ok q0)
    (hfill : 8 ≤ ps.length) (hfull : ps.length ≤ 10) (hd : d ≤ ps.length) :
    ∃ q1 es1, run q0 (fill ps ++ List.replicate d call.dequeue) = .ok (q1, es1) ∧
      hooks_invoked es1 = List.replicate (ps.length - 7) hook_id.hook_high ∧
      dequeued es1 = (ps.take d).map some ∧
      q1.fifo = (ps.drop d).map some ∧
      q1.wm.raised = true ∧
      (ps.length - d ≤ 2 →
        ∃ q2 q3, q1.enqueue y = (true, q2, [hook_id.hook_low]) ∧ q2.wm.raised = false ∧
          q2.enqueue z = (true, q3, [])) := by
  have hq0 := ctor_ok_eq _ _ _ hctor
  subst hq0
  obtain ⟨es, h2, h3, h4, h5⟩ := run_fill_high_hook ps
    ({ occupied_slots := 0, available_slots := 10, fifo := [],
       wm := { raised := false, low := ⟨2, some .hook_low⟩,
               high := ⟨((8 : Nat) : Int), some .hook_high⟩ } } :
      message_queue T hook_id 10) 8 .hook_high rfl (by decide) hfull (by simp)
  have hmark : ((8 : Nat) : Int) = 8 := rfl
  rw [hmark] at h2
  have hcond : 8 ≤ ([] : List (msg_ptr T)).length + ps.length ∧ 0 < ps.length := by
    simp only [List.length_nil]; omega
  simp only [if_pos hcond, List.nil_append, Nat.zero_add] at h2
  have hlen : (ps.take d).length = d := by simp [hd]
  have h6 := run_drain (ps.take d)
    ({ occupied_slots := ps.length, available_slots := 10 - ps.length, fifo := ps.map some,
       wm := { raised := true, low := ⟨2, some .hook_low⟩, high := ⟨8, some .hook_high⟩ } } :
      message_queue T hook_id 10) ((ps.drop d).map some)
    (by simp only [← List.map_append, List.take_append_drop]) (by simp only [hlen]; exact hd)
  rw [hlen] at h6
  refine ⟨{ occupied_slots := ps.length - d, available_slots := 10 - ps.length + d,
            fifo := (ps.drop d).map some,
            wm := { raised := true, low := ⟨2, some .hook_low⟩,
                    high := ⟨8, some .hook_high⟩ } },
    es ++ (ps.take d).map fun m => event.dequeue_returned (some m),
    by rw [run_append, h2]; simp only [h6], ?_, ?_, rfl, rfl, ?_⟩
  · rw [hooks_invoked_append, h3, hooks_invoked_drain, List.append_nil]
    simp only [List.length_nil]
    congr 1
    omega
  · rw [dequeued_append, h5, List.nil_append, dequeued_drain]
  · intro hrem
    have hdrop : (List.drop d ps).length = ps.length - d := by simp
    have ht2 : to_size_t 2 = 2 := by decide
    have ht8 : to_size_t 8 = 8 := by decide
    have hav : ∃ a, 10 - ps.length + d = a + 1 := ⟨10 - ps.length + d - 1, by omega⟩
    obtain ⟨a, hav⟩ := hav
    have hs1 : size_t_sub (ps.length - d + 1) 1 = ps.length - d :=
      size_t_sub_one _ (by omega)
    have hnot1 : ¬ 8 ≤ ps.length - d + 1 := by omega
    have hnot2 : ¬ 8 ≤ ps.length - d + 1 + 1 := by omega
    obtain ⟨a', ha'⟩ : ∃ a', a = a' + 1 := ⟨a - 1, by omega⟩
    refine ⟨{ occupied_slots := permit_added (ps.length - d), available_slots := a,
              fifo := (ps.drop d).map some ++ [y],
              wm := { raised := false, low := ⟨2, some .hook_low⟩,
                      high := ⟨8, some .hook_high⟩ } },
      { occupied_slots := permit_added (permit_added (ps.length - d)), available_slots := a',
        fifo := (ps.drop d).map some ++ [y] ++ [z],
        wm := { raised := false, low := ⟨2, some .hook_low⟩,
                high := ⟨8, some .hook_high⟩ } }, ?_, ?_, ?_⟩
    · simp only [message_queue.enqueue, hav, try_acquire_succ, List.length_append,
        List.length_map, hdrop, List.length_singleton, ht8, ht2, hs1, Option.isSome_some,
        Bool.true_and, ge_iff_le, hnot1, decide_False, Bool.false_eq_true, if_false,
        hrem, decide_True, if_true, Option.toList_some]
    · rfl
    · simp only [message_queue.enqueue, ha', try_acquire_succ, List.length_append,
        List.length_map, hdrop, List.length_singleton, ht8, ht2, Option.isSome_some,
        Bool.true_and, ge_iff_le, hnot2, decide_False, Bool.false_eq_true, if_false,
        Bool.false_and]

theorem C8_low_hook_after_drain_witness :
    ∃ (q1 : message_queue Nat hook_id 10) (es1 : List (event Nat hook_id)),
      run { occupied_slots := 0, available_slots := 10, fifo := [],
            wm := { raised := false, low := ⟨2, some .hook_low⟩,
                    high := ⟨8, some .hook_high⟩ } }
          (fill [1, 2, 3, 4, 5, 6, 7, 8, 9, 10] ++ List.replicate 8 call.dequeue) =
        .ok (q1, es1) ∧
      hooks_invoked es1 =
        List.replicate ([1, 2, 3, 4, 5, 6, 7, 8, 9, 10].length - 7) hook_id.hook_high ∧
      dequeued es1 = ([1, 2, 3, 4, 5, 6, 7, 8, 9, 10].take 8).map some ∧
      q1.fifo = ([1, 2, 3, 4, 5, 6, 7, 8, 9, 10].drop 8).map some ∧
      q1.wm.raised = true ∧
      ([1, 2, 3, 4, 5, 6, 7, 8, 9, 10].length - 8 ≤ 2 →
        ∃ q2 q3, q1.enqueue (some 11) = (true, q2, [hook_id.hook_low]) ∧
          q2.wm.raised = false ∧ q2.enqueue (some 12) = (true, q3, [])) :=
  C8_low_hook_after_drain [1, 2, 3, 4, 5, 6, 7, 8, 9, 10] 8 (some 11) (some 12) _ rfl
    (by decide) (by decide) (by decide)

/-- C9 on the code: on a queue whose item sequence is empty and that has no
occupied permit, after one call of abort_queue the next dequeue obtains the
permit and then calls `fifo.front()` on the empty sequence, which is undefined
behaviour; it does not return the sentinel. -/
theorem C9_abort_then_dequeue_undefined (q : message_queue T H depth)
    (hempty : q.fifo = []) (hocc : q.occupied_slots = 0) :
    q.abort_queue.dequeue = .error fault.undefined_behaviour := by
  simp [message_queue.abort_queue, message_queue.dequeue, hempty, hocc, permit_added,
    try_acquire_succ]

theorem C9_abort_then_dequeue_undefined_witness :
    (message_queue.ctor_default : message_queue Nat Unit 4).abort_queue.dequeue =
      .error fault.undefined_behaviour :=
  C9_abort_then_dequeue_undefined (message_queue.ctor_default : message_queue Nat Unit 4)
    rfl rfl

/-- C10 on the code: a queue of depth 4 holds the items 1 and 2 after two
enqueues.  Two concurrent dequeue calls are interleaved so that both take a
permit and both read `fifo.front()` before either pops.  Both calls return
item 1; item 2 is popped by the second call and returned by nobody. -/
theorem C10_two_consumers_return_same_item :
    ∃ (q0 : message_queue Nat Unit 4) (es : List (event Nat Unit))
      (s : consumers Nat Unit 4),
      run (message_queue.ctor_default : message_queue Nat Unit 4) (fill [1, 2]) =
        .ok (q0, es) ∧
      q0.fifo = [some 1, some 2] ∧
      interleave { q := q0, operation := false, calls := [.start, .start] }
        [0, 1, 0, 1, 0, 0, 0, 0, 1, 1, 1, 1] = .ok s ∧
      s.calls = [.returned (some 1), .returned (some 1)] ∧
      s.q.fifo = [] :=
  ⟨_, _, _, rfl, rfl, rfl, rfl, rfl⟩

/-- C11, as the claim states it, fails: on a default-constructed queue of
depth 4 one abort_queue call leaves 4 free permits and 1 occupied permit, a
sum of 5. -/
theorem C11_counterexample :
    ∃ (q : message_queue Nat Unit 4) (es : List (event Nat Unit)),
      run (message_queue.ctor_default : message_queue Nat Unit 4) [call.abort_queue] =
        .ok (q, es) ∧
      q.available_slots + q.occupied_slots = 5 ∧
      ¬ (q.available_slots + q.occupied_slots ≤ 4) :=
  ⟨_, _, rfl, rfl, by decide⟩

/-- C11, amended. In every state reached from a freshly constructed queue by a
finite sequence of enqueue, dequeue and abort_queue calls that all return, the
sum of the available_slots (free) count and the occupied_slots count is at
most depth plus the number of abort_queue calls made; in a run without
abort_queue calls it never exceeds depth. -/
theorem C11_permit_sum_bound (q0 q : message_queue T H depth) (cs : List (call T))
    (es : List (event T H)) (h0 : freshly_constructed q0)
    (hrun : run q0 cs = .ok (q, es)) :
    q.available_slots + q.occupied_slots ≤ depth + abort_calls cs ∧
    ((∀ c ∈ cs, c ≠ call.abort_queue) → q.available_slots + q.occupied_slots ≤ depth) := by
  have hb := slots_balanced_run cs q0 q es (slots_balanced_fresh q0 h0) hrun
  have ho := occupied_run cs q0 q es hrun
  obtain ⟨hf, hocc, -, -⟩ := fresh_fifo q0 h0
  unfold slots_balanced at hb
  rw [hf, hocc] at ho
  simp only [List.length_nil, Nat.add_zero, Nat.zero_add] at ho
  refine ⟨by omega, fun hcs => ?_⟩
  have := abort_calls_eq_zero cs hcs
  omega

theorem C11_permit_sum_bound_witness :
    ∃ (q : message_queue Nat Unit 2) (es : List (event Nat Unit)),
      run (message_queue.ctor_default : message_queue Nat Unit 2)
        [.enqueue (some 7), .abort_queue, .dequeue, .enqueue none] = .ok (q, es) ∧
      q.available_slots + q.occupied_slots = 3 ∧
      (q.available_slots + q.occupied_slots ≤
          2 + abort_calls [call.enqueue (some 7), .abort_queue, .dequeue, .enqueue none] ∧
        ((∀ c ∈ [call.enqueue (some 7), .abort_queue, .dequeue, .enqueue none],
            c ≠ call.abort_queue) →
          q.available_slots + q.occupied_slots ≤ 2)) :=
  ⟨_, _, rfl, rfl,
    C11_permit_sum_bound (message_queue.ctor_default : message_queue Nat Unit 2) _
      [.enqueue (some 7), .abort_queue, .dequeue, .enqueue none] _ (Or.inl rfl) rfl⟩

/-- C12. Sentinel is retained by dequeue: in every queue state with an occupied
permit available whose head item is the sentinel (null handle), dequeue returns
the sentinel, leaves the item sequence unchanged (the sentinel stays at the
head), leaves the free (available_slots) count and the watermark with its
raised flag unchanged, and consumes exactly one occupied permit. -/
theorem C12_sentinel_retained (q : message_queue T H depth) (rest : List (msg_ptr T))
    (hocc : q.occupied_slots ≠ 0) (hhead : q.fifo = none :: rest) :
    ∃ q', q.dequeue = .ok (none, q') ∧
      q'.fifo = q.fifo ∧ q'.fifo.head? = some none ∧
      q'.available_slots = q.available_slots ∧
      q'.wm = q.wm ∧ q'.wm.raised = q.wm.raised ∧
      q'.occupied_slots + 1 = q.occupied_slots := by
  obtain ⟨o, ho⟩ : ∃ o, q.occupied_slots = o + 1 := ⟨q.occupied_slots - 1, by omega⟩
  refine ⟨{ q with occupied_slots := o }, ?_, rfl, by simp [hhead], rfl, rfl, rfl, ho.symm⟩
  simp [message_queue.dequeue, ho, try_acquire_succ, hhead]

theorem C12_sentinel_retained_witness :
    ∃ q' : message_queue Nat Unit 4,
      ({ occupied_slots := 2, available_slots := 2, fifo := [none, some 5],
         wm := { raised := false, low := ⟨0, none⟩, high := ⟨4, none⟩ } } :
        message_queue Nat Unit 4).dequeue = .ok (none, q') ∧
      q'.fifo = [none, some 5] ∧ q'.fifo.head? = some none ∧
      q'.available_slots = 2 ∧
      q'.wm = { raised := false, low := ⟨0, none⟩, high := ⟨4, none⟩ } ∧
      q'.wm.raised = false ∧
      q'.occupied_slots + 1 = 2 :=
  C12_sentinel_retained
    ({ occupied_slots := 2, available_slots := 2, fifo := [none, some 5],
       wm := { raised := false, low := ⟨0, none⟩, high := ⟨4, none⟩ } } :
      message_queue Nat Unit 4) [some 5] (by decide) rfl

/-- C13. Blocking dequeue, as enabledness of the dequeue step: on a freshly
constructed (empty) queue of depth >= 1 dequeue cannot complete, for want of an
occupied permit; the enqueue of a non-null item x returns true; after it
exactly one dequeue completes, it returns x, and a further dequeue again
cannot complete. -/
theorem C13_blocking_dequeue (q0 : message_queue T H depth) (x : T)
    (h0 : freshly_constructed q0) (hd : 1 ≤ depth) :
    q0.dequeue = .error fault.blocked ∧
    (q0.enqueue (some x)).1 = true ∧
    ∃ q2, (q0.enqueue (some x)).2.1.dequeue = .ok (some x, q2) ∧
      q2.dequeue = .error fault.blocked := by
  obtain ⟨hf, hocc, hav, -⟩ := fresh_fifo q0 h0
  have ha : q0.available_slots ≠ 0 := by omega
  obtain ⟨h1, -, h3⟩ := enqueue_ok_fifo q0 (some x) ha
  rw [hf] at h1
  rw [hocc] at h3
  refine ⟨by simp [message_queue.dequeue, hocc, try_acquire_zero],
    by rw [enqueue_fst]; simp [ha],
    { (q0.enqueue (some x)).2.1 with
        occupied_slots := 0
        fifo := []
        available_slots := permit_added (q0.enqueue (some x)).2.1.available_slots }, ?_, ?_⟩
  · simp [message_queue.dequeue, h1, h3, try_acquire_succ]
  · simp [message_queue.dequeue, try_acquire_zero]

theorem C13_blocking_dequeue_witness :
    (message_queue.ctor_default : message_queue Nat Unit 4).dequeue = .error fault.blocked ∧
    ((message_queue.ctor_default : message_queue Nat Unit 4).enqueue (some 7)).1 = true ∧
    ∃ q2, ((message_queue.ctor_default : message_queue Nat Unit 4).enqueue (some 7)).2.1.dequeue
        = .ok (some 7, q2) ∧
      q2.dequeue = .error fault.blocked :=
  C13_blocking_dequeue (message_queue.ctor_default : message_queue Nat Unit 4) 7
    (Or.inl rfl) (by decide)

/-- C14. Watermark evaluation rule: take a queue constructed with
0 <= low < high <= depth (`int` marks, depth below 2 ^ 63), any state reached
from it, and an enqueue that returns true there; let s be the occupancy after
the insertion.  If a high hook is configured and s >= high.threshold, raised
becomes true and exactly the high hook is invoked, once.  Otherwise, if a low
hook is configured, raised is true and s - 1 <= low.threshold, raised becomes
false and exactly the low hook is invoked, once.  Otherwise no hook is invoked
and raised is unchanged.  At most one hook is invoked per enqueue. -/
theorem C14_watermark_rule (low high : boundary H) (q0 q : message_queue T H depth)
    (cs : List (call T)) (es : List (event T H)) (payload : msg_ptr T)
    (hd : depth < 2 ^ 63) (hlow : 0 ≤ low.mark) (hmax : high.mark < 2 ^ 31)
    (hctor : message_queue.ctor low high = .ok q0) (hrun : run q0 cs = .ok (q, es))
    (hok : (q.enqueue payload).1 = true) :
    (low.mark < high.mark ∧ high.mark ≤ (depth : Int)) ∧
    (q.enqueue payload).2.1.fifo.length = q.fifo.length + 1 ∧
    (∀ hh, high.hook = some hh → high.mark ≤ (q.fifo.length : Int) + 1 →
      (q.enqueue payload).2.1.wm.raised = true ∧ (q.enqueue payload).2.2 = [hh]) ∧
    (¬ (high.hook.isSome = true ∧ high.mark ≤ (q.fifo.length : Int) + 1) →
      ∀ hl, low.hook = some hl → q.wm.raised = true →
        (q.fifo.length : Int) + 1 - 1 ≤ low.mark →
        (q.enqueue payload).2.1.wm.raised = false ∧ (q.enqueue payload).2.2 = [hl]) ∧
    (¬ (high.hook.isSome = true ∧ high.mark ≤ (q.fifo.length : Int) + 1) →
      ¬ (low.hook.isSome = true ∧ q.wm.raised = true ∧
          (q.fifo.length : Int) + 1 - 1 ≤ low.mark) →
      (q.enqueue payload).2.1.wm.raised = q.wm.raised ∧ (q.enqueue payload).2.2 = []) ∧
    (q.enqueue payload).2.2.length ≤ 1 := by
  have hlt := ctor_ok_lt low high q0 hctor
  obtain ⟨ho1, ho2, ho3⟩ := ctor_ok_marks low high q0 hd (by omega) hmax hctor
  have hq0 := ctor_ok_eq _ _ _ hctor
  obtain ⟨hcl, hch⟩ := wm_config_run cs q0 q es hrun
  have hql : q.wm.low = low := by rw [hcl, hq0]
  have hqh : q.wm.high = high := by rw [hch, hq0]
  have hb := slots_balanced_run cs q0 q es
    (slots_balanced_fresh q0 (Or.inr ⟨low, high, hctor⟩)) hrun
  unfold slots_balanced at hb
  have ha : q.available_slots ≠ 0 := by
    rw [enqueue_fst] at hok
    simpa using hok
  have th := to_size_t_of_nonneg_lt high.mark (by omega) (by omega)
  have tl := to_size_t_of_nonneg_lt low.mark hlow (by omega)
  have hs1 : size_t_sub (q.fifo.length + 1) 1 = q.fifo.length :=
    size_t_sub_one _ (by omega)
  have hlen := (enqueue_ok_fifo q payload ha).1
  have eh : (to_size_t high.mark ≤ q.fifo.length + 1) ↔
      (high.mark ≤ (q.fifo.length : Int) + 1) := by
    omega
  have el : (size_t_sub (q.fifo.length + 1) 1 ≤ to_size_t low.mark) ↔
      ((q.fifo.length : Int) + 1 - 1 ≤ low.mark) := by
    rw [hs1]; omega
  have cases3 :
      (∃ hh, q.wm.high.hook = some hh ∧ to_size_t q.wm.high.mark ≤ q.fifo.length + 1) ∨
      (¬ (q.wm.high.hook.isSome = true ∧ to_size_t q.wm.high.mark ≤ q.fifo.length + 1) ∧
        ∃ hl, q.wm.low.hook = some hl ∧ q.wm.raised = true ∧
          size_t_sub (q.fifo.length + 1) 1 ≤ to_size_t q.wm.low.mark) ∨
      (¬ (q.wm.high.hook.isSome = true ∧ to_size_t q.wm.high.mark ≤ q.fifo.length + 1) ∧
        ¬ (q.wm.low.hook.isSome = true ∧ q.wm.raised = true ∧
          size_t_sub (q.fifo.length + 1) 1 ≤ to_size_t q.wm.low.mark)) := by
    by_cases c1 : q.wm.high.hook.isSome = true ∧
        to_size_t q.wm.high.mark ≤ q.fifo.length + 1
    · obtain ⟨hh, hhh⟩ := Option.isSome_iff_exists.mp c1.1
      exact Or.inl ⟨hh, hhh, c1.2⟩
    · by_cases c2 : q.wm.low.hook.isSome = true ∧ q.wm.raised = true ∧
          size_t_sub (q.fifo.length + 1) 1 ≤ to_size_t q.wm.low.mark
      · obtain ⟨hl, hhl⟩ := Option.isSome_iff_exists.mp c2.1
        exact Or.inr (Or.inl ⟨c1, hl, hhl, c2.2.1, c2.2.2⟩)
      · exact Or.inr (Or.inr ⟨c1, c2⟩)
  refine ⟨⟨ho1, ho3⟩, by rw [hlen]; simp, ?_, ?_, ?_, ?_⟩
  · intro hh hhook hsize
    rw [enqueue_high_branch q payload hh ha (by rw [hqh]; exact hhook)
      (by rw [hqh]; exact eh.mpr hsize)]
    exact ⟨rfl, rfl⟩
  · intro hnot hl hhook hraised hsize
    rw [enqueue_low_branch q payload hl ha (by rw [hqh, eh]; exact hnot)
      (by rw [hql]; exact hhook) hraised (by rw [hql]; exact el.mpr hsize)]
    exact ⟨rfl, rfl⟩
  · intro hnot hnot2
    rw [enqueue_no_branch q payload ha (by rw [hqh, eh]; exact hnot)
      (by rw [hql, el]; exact hnot2)]
    exact ⟨rfl, rfl⟩
  · rcases cases3 with ⟨hh, h1, h2⟩ | ⟨h1, hl, h2, h3, h4⟩ | ⟨h1, h2⟩
    · rw [enqueue_high_branch q payload hh ha h1 h2]; simp
    · rw [enqueue_low_branch q payload hl ha h1 h2 h3 h4]; simp
    · rw [enqueue_no_branch q payload ha h1 h2]; simp

theorem C14_watermark_rule_witness :
    ∃ (q : message_queue Nat hook_id 10) (es : List (event Nat hook_id)),
      run { occupied_slots := 0, available_slots := 10, fifo := [],
            wm := { raised := false, low := ⟨2, some .hook_low⟩,
                    high := ⟨8, some .hook_high⟩ } }
          (fill [1, 2, 3, 4, 5, 6, 7]) = .ok (q, es) ∧
      (q.enqueue (some 8)).2.1.wm.raised = true ∧
      (q.enqueue (some 8)).2.2 = [hook_id.hook_high] :=
  ⟨_, _, rfl,
    (@C14_watermark_rule Nat hook_id 10 ⟨2, some .hook_low⟩ ⟨8, some .hook_high⟩ _ _
      (fill [1, 2, 3, 4, 5, 6, 7]) _ (some 8) (by norm_num) (by decide) (by decide) rfl rfl
      rfl).2.2.1 hook_id.hook_high rfl (by decide)⟩

/-- C15. Only enqueue drives the Normal/WatermarkRaised state machine: in every
queue state a dequeue that returns (sentinel branch or real-payload branch) and
abort_queue leave the watermark, its raised flag included, unchanged and invoke
no hook; a call after which the raised flag differs is an enqueue that returned
true. -/
theorem C15_only_enqueue_changes_raised (q q' : message_queue T H depth) (c : call T)
    (es : List (event T H)) (h : step q c = .ok (q', es)) :
    ((c = call.dequeue ∨ c = call.abort_queue) →
      q'.wm = q.wm ∧ q'.wm.raised = q.wm.raised ∧ hooks_invoked es = []) ∧
    (q'.wm.raised ≠ q.wm.raised →
      ∃ payload, c = call.enqueue payload ∧ (q.enqueue payload).1 = true) := by
  rcases step_cases q q' c es h with ⟨payload, rfl, rfl, -⟩ | ⟨msg, rfl, hd, rfl⟩ |
    ⟨rfl, rfl, rfl⟩
  · refine ⟨fun hc => (by rcases hc with hc | hc <;> cases hc), fun hne => ⟨payload, rfl, ?_⟩⟩
    cases hok : (q.enqueue payload).1 with
    | true => rfl
    | false =>
      have ha : q.available_slots = 0 := by
        rw [enqueue_fst] at hok
        simpa using hok
      rw [enqueue_full q payload ha] at hne
      exact absurd rfl hne
  · have hwm : q'.wm = q.wm := by
      obtain ⟨-, ⟨-, -, rfl⟩ | ⟨m, rest, -, -, rfl⟩⟩ := dequeue_ok_cases q q' msg hd
      · rfl
      · rfl
    exact ⟨fun _ => ⟨hwm, by rw [hwm], rfl⟩, fun hne => absurd (by rw [hwm]) hne⟩
  · exact ⟨fun _ => ⟨rfl, rfl, rfl⟩, fun hne => absurd rfl hne⟩

theorem C15_only_enqueue_changes_raised_witness :
    ∃ (q' : message_queue Nat hook_id 2) (es : List (event Nat hook_id)),
      step ({ occupied_slots := 1, available_slots := 1, fifo := [some 4],
              wm := { raised := true, low := ⟨0, some .hook_low⟩,
                      high := ⟨1, some .hook_high⟩ } } : message_queue Nat hook_id 2)
        call.dequeue = .ok (q', es) ∧
      q'.fifo = [] ∧
      (((call.dequeue = (call.dequeue : call Nat) ∨
          call.dequeue = (call.abort_queue : call Nat)) →
        q'.wm = { raised := true, low := ⟨0, some .hook_low⟩,
                  high := ⟨1, some .hook_high⟩ } ∧
        q'.wm.raised = true ∧ hooks_invoked es = []) ∧
      (q'.wm.raised ≠ true → ∃ payload, call.dequeue = call.enqueue payload ∧
        (({ occupied_slots := 1, available_slots := 1, fifo := [some 4],
            wm := { raised := true, low := ⟨0, some .hook_low⟩,
                    high := ⟨1, some .hook_high⟩ } } :
          message_queue Nat hook_id 2).enqueue payload).1 = true)) :=
  ⟨_, _, rfl, rfl,
    C15_only_enqueue_changes_raised
      ({ occupied_slots := 1, available_slots := 1, fifo := [some 4],
         wm := { raised := true, low := ⟨0, some .hook_low⟩,
                 high := ⟨1, some .hook_high⟩ } } : message_queue Nat hook_id 2)
      _ call.dequeue _ rfl⟩

/-- C16. Real-payload dequeue postcondition: in every queue state with an
occupied permit available whose head item is a non-null payload p, dequeue
returns p, the item sequence becomes the old sequence with its head removed
(the rest in the same order), the free (available_slots) count increases by
exactly one and the occupied count decreases by exactly one. -/
theorem C16_dequeue_payload (q : message_queue T H depth) (p : T) (rest : List (msg_ptr T))
    (hocc : q.occupied_slots ≠ 0) (hhead : q.fifo = some p :: rest) :
    ∃ q', q.dequeue = .ok (some p, q') ∧
      q'.fifo = rest ∧ q'.fifo = q.fifo.tail ∧
      q'.available_slots = q.available_slots + 1 ∧
      q'.occupied_slots + 1 = q.occupied_slots ∧
      q'.wm = q.wm := by
  obtain ⟨o, ho⟩ : ∃ o, q.occupied_slots = o + 1 := ⟨q.occupied_slots - 1, by omega⟩
  refine ⟨{ q with occupied_slots := o, fifo := rest
                   available_slots := permit_added q.available_slots }, ?_, rfl,
    by simp [hhead], rfl, ho.symm, rfl⟩
  simp [message_queue.dequeue, ho, try_acquire_succ, hhead]

theorem C16_dequeue_payload_witness :
    ∃ q' : message_queue Nat Unit 4,
      ({ occupied_slots := 2, available_slots := 2, fifo := [some 5, some 6],
         wm := { raised := false, low := ⟨0, none⟩, high := ⟨4, none⟩ } } :
        message_queue Nat Unit 4).dequeue = .ok (some 5, q') ∧
      q'.fifo = [some 6] ∧ q'.fifo = [some 5, some 6].tail ∧
      q'.available_slots = 2 + 1 ∧
      q'.occupied_slots + 1 = 2 ∧
      q'.wm = { raised := false, low := ⟨0, none⟩, high := ⟨4, none⟩ } :=
  C16_dequeue_payload
    ({ occupied_slots := 2, available_slots := 2, fifo := [some 5, some 6],
       wm := { raised := false, low := ⟨0, none⟩, high := ⟨4, none⟩ } } :
      message_queue Nat Unit 4) 5 [some 6] (by decide) rfl

/-- C18. Shutdown protocol: for every k with k + 1 <= depth, starting from a
fresh queue, enqueuing the sentinel (null handle) once and then calling
abort_queue k times makes each of the next k + 1 dequeue calls complete and
return the sentinel, and the sentinel is still at the head of the item
sequence afterwards. -/
theorem C18_shutdown_protocol (q0 : message_queue T H depth) (k : Nat)
    (h0 : freshly_constructed q0) (hk : k + 1 ≤ depth) :
    ∃ q es, run q0 ([call.enqueue none] ++ List.replicate k call.abort_queue ++
        List.replicate (k + 1) call.dequeue) = .ok (q, es) ∧
      dequeued es = List.replicate (k + 1) none ∧
      q.fifo.head? = some none ∧ q.fifo = [none] ∧ q.occupied_slots = 0 := by
  obtain ⟨hf, hocc, hav, -⟩ := fresh_fifo q0 h0
  have ha : q0.available_slots ≠ 0 := by omega
  obtain ⟨h1, -, h3⟩ := enqueue_ok_fifo q0 none ha
  rw [hf, List.nil_append] at h1
  rw [hocc] at h3
  have e1 : run q0 [call.enqueue none] =
      .ok ((q0.enqueue none).2.1, (q0.enqueue none).2.2.map event.hook_invoked ++
        [event.enqueue_returned none (q0.enqueue none).1]) := by
    simp [run, step]
  have e2 := run_aborts k (q0.enqueue none).2.1
  have e3 := run_dequeue_sentinel (k + 1)
    ({ (q0.enqueue none).2.1 with
        occupied_slots := (q0.enqueue none).2.1.occupied_slots + k } : message_queue T H depth)
    [] h1 (by simp only; omega)
  have hrun : run q0 ([call.enqueue none] ++ List.replicate k call.abort_queue ++
        List.replicate (k + 1) call.dequeue) =
      .ok (({ (q0.enqueue none).2.1 with
              occupied_slots := (q0.enqueue none).2.1.occupied_slots + k - (k + 1) } :
            message_queue T H depth),
        (q0.enqueue none).2.2.map event.hook_invoked ++
            [event.enqueue_returned none (q0.enqueue none).1] ++
          List.replicate k event.abort_returned ++
          List.replicate (k + 1) (event.dequeue_returned none)) := by
    rw [run_append, run_append, e1]
    dsimp only
    rw [e2]
    dsimp only
    rw [e3]
  refine ⟨_, _, hrun, ?_, by simp only [h1]; rfl, h1, by simp only; omega⟩
  rw [dequeued_append, dequeued_append, dequeued_step_enqueue, dequeued_replicate_abort,
    dequeued_replicate_sentinel]
  simp

theorem C18_shutdown_protocol_witness :
    ∃ (q : message_queue Nat Unit 4) (es : List (event Nat Unit)),
      run (message_queue.ctor_default : message_queue Nat Unit 4)
        ([call.enqueue none] ++ List.replicate 2 call.abort_queue ++
          List.replicate (2 + 1) call.dequeue) = .ok (q, es) ∧
      dequeued es = List.replicate (2 + 1) none ∧
      q.fifo.head? = some none ∧ q.fifo = [none] ∧ q.occupied_slots = 0 :=
  C18_shutdown_protocol (message_queue.ctor_default : message_queue Nat Unit 4) 2
    (Or.inl rfl) (by decide)

/-- C19. Safety of the head read without abort: a run of enqueue and dequeue
calls only (payloads null or non-null, no abort_queue) from a fresh queue never
reads the head of an empty item sequence, and in every state it reaches the
occupied permit count is at most the length of the item sequence; so whenever
dequeue obtains an occupied permit the item sequence is non-empty and
`fifo.front()` is defined. -/
theorem C19_head_read_safe (q0 : message_queue T H depth) (cs : List (call T))
    (h0 : freshly_constructed q0) (hcs : ∀ c ∈ cs, c ≠ call.abort_queue) :
    run q0 cs ≠ .error fault.undefined_behaviour ∧
    ∀ q es, run q0 cs = .ok (q, es) →
      q.occupied_slots ≤ q.fifo.length ∧
      (q.occupied_slots ≠ 0 → q.fifo ≠ []) ∧
      q.dequeue ≠ .error fault.undefined_behaviour := by
  obtain ⟨hf, hocc, -, -⟩ := fresh_fifo q0 h0
  refine ⟨run_no_undefined cs q0 (by rw [hocc]; exact Nat.zero_le _) hcs, ?_⟩
  intro q es hrun
  have ho := occupied_run cs q0 q es hrun
  rw [abort_calls_eq_zero cs hcs, hf, hocc] at ho
  simp only [List.length_nil, Nat.add_zero, Nat.zero_add] at ho
  have hne : q.occupied_slots ≠ 0 → q.fifo ≠ [] := by
    intro h hnil
    rw [hnil] at ho
    simp at ho
    exact h ho
  refine ⟨ho, hne, ?_⟩
  intro hub
  obtain ⟨h1, h2⟩ := (dequeue_undefined_iff q).mp hub
  exact hne h1 h2

theorem C19_head_read_safe_witness :
    run (message_queue.ctor_default : message_queue Nat Unit 2)
        [.enqueue none, .enqueue (some 8), .dequeue, .dequeue] ≠
      .error fault.undefined_behaviour ∧
    ∀ q es, run (message_queue.ctor_default : message_queue Nat Unit 2)
        [.enqueue none, .enqueue (some 8), .dequeue, .dequeue] = .ok (q, es) →
      q.occupied_slots ≤ q.fifo.length ∧
      (q.occupied_slots ≠ 0 → q.fifo ≠ []) ∧
      q.dequeue ≠ .error fault.undefined_behaviour :=
  C19_head_read_safe (message_queue.ctor_default : message_queue Nat Unit 2)
    [.enqueue none, .enqueue (some 8), .dequeue, .dequeue] (Or.inl rfl) (by simp)

/-- C20. Hysteresis of the low hook: take a freshly constructed queue whose
low hook is `hook_low` or absent and whose high hook is `hook_high` or absent.
In every state a run reaches, raised = true implies that a high hook is
configured, and an enqueue that invokes the low hook finds raised = true and
leaves it false.  The hooks invoked by the run obey the hysteresis: between any
two invocations of the low hook there is an invocation of the high hook, and no
invocation of the low hook comes before the first one of the high hook. -/
theorem C20_low_hook_hysteresis (q0 q : message_queue T hook_id depth) (cs : List (call T))
    (es : List (event T hook_id)) (h0 : freshly_constructed q0)
    (hl : q0.wm.low.hook ≠ some hook_id.hook_high)
    (hh : q0.wm.high.hook ≠ some hook_id.hook_low)
    (hrun : run q0 cs = .ok (q, es)) :
    (q.wm.raised = true → q.wm.high.hook.isSome = true) ∧
    (∀ payload, hook_id.hook_low ∈ (q.enqueue payload).2.2 →
      q.wm.raised = true ∧ (q.enqueue payload).2.1.wm.raised = false) ∧
    low_after_high false (hooks_invoked es) = true := by
  obtain ⟨-, -, -, hraised⟩ := fresh_fifo q0 h0
  obtain ⟨h1, h2⟩ := hysteresis_run cs q0 q es false hl hh
    (by rw [hraised]; intro hc; cases hc) (by rw [hraised]; intro hc; cases hc) hrun
  obtain ⟨hc1, hc2⟩ := wm_config_run cs q0 q es hrun
  refine ⟨h1, ?_, h2⟩
  intro payload hmem
  rcases enqueue_invoked_cases q payload (by rw [hc1]; exact hl) (by rw [hc2]; exact hh) with
    ⟨e1, -⟩ | ⟨e1, -, -⟩ | ⟨-, e2, e3⟩
  · rw [e1] at hmem; simp at hmem
  · rw [e1] at hmem; simp at hmem
  · exact ⟨e2, e3⟩

theorem C20_low_hook_hysteresis_witness :
    ∃ (q : message_queue Nat hook_id 3) (es : List (event Nat hook_id)),
      run ({ occupied_slots := 0, available_slots := 3, fifo := [],
             wm := { raised := false, low := ⟨1, some .hook_low⟩,
                     high := ⟨2, some .hook_high⟩ } } : message_queue Nat hook_id 3)
        [.enqueue (some 1), .enqueue (some 2), .dequeue, .dequeue, .enqueue (some 3),
         .enqueue (some 4), .enqueue (some 5)] = .ok (q, es) ∧
      hooks_invoked es = [.hook_high, .hook_low, .hook_high, .hook_high] ∧
      ((q.wm.raised = true → q.wm.high.hook.isSome = true) ∧
       (∀ payload, hook_id.hook_low ∈ (q.enqueue payload).2.2 →
         q.wm.raised = true ∧ (q.enqueue payload).2.1.wm.raised = false) ∧
       low_after_high false (hooks_invoked es) = true) :=
  ⟨_, _, rfl, rfl,
    C20_low_hook_hysteresis
      ({ occupied_slots := 0, available_slots := 3, fifo := [],
         wm := { raised := false, low := ⟨1, some .hook_low⟩,
                 high := ⟨2, some .hook_high⟩ } } : message_queue Nat hook_id 3) _
      [.enqueue (some 1), .enqueue (some 2), .dequeue, .dequeue, .enqueue (some 3),
       .enqueue (some 4), .enqueue (some 5)] _
      (Or.inr ⟨⟨1, some .hook_low⟩, ⟨2, some .hook_high⟩, rfl⟩) (by decide) (by decide) rfl⟩

end utils
